import Mathlib

/-!
Verification of the bucket-based many-to-many contraction-hierarchy search
(`src/engine/routing_algorithms/many_to_many_ch.cpp`).

The file is a shallow embedding of the routines of that translation unit:
`addLoopWeight`, `relaxOutgoingEdges`, `forwardRoutingStep`,
`backwardRoutingStep`, `retrievePackedPathFromSearchSpace` and
`manyToManySearch`.  Machine integers (`EdgeWeight`, `EdgeDuration`) are
modelled as `Int`, node ids (`NodeID`) as `Nat`; the sentinel constants keep
their numeric values (`int32` max, `uint32` max).  Collaborators that live in
headers outside the translation unit (the query heap, `NodeBucket` and its
comparators, `stallAtNode`, `getLoopWeight`, phantom-node seeding) are
modelled from the spec; each such definition carries a doc comment saying so.
The two `while (!query_heap.Empty())` loops and the parent-following loop of
`retrievePackedPathFromSearchSpace` are embedded with an explicit fuel
parameter; fuel exhaustion is distinguished from normal exit, and the
termination theorem (C9) exhibits sufficient fuel.  Out-of-range vector
accesses (undefined behaviour in the C++) are modelled as an explicit failure
value.  The debug `std::cout` block of `manyToManySearch` (lines 244-254 and
288-395, which prints reconstruction diagnostics and discards the results) is
instrumentation, not part of the algorithm; the embedding of
`manyToManySearch` keeps the tables, bucket list and the per-row lists of
settled nodes as ghost outputs instead, and the path-reconstruction routine
is analysed directly.
-/

namespace ManyToManyCH

/-- `INVALID_EDGE_WEIGHT`: `std::numeric_limits<EdgeWeight>::max()` for the
32-bit signed `EdgeWeight`. -/
def INVALID_EDGE_WEIGHT : Int := 2147483647

/-- `MAXIMAL_EDGE_DURATION`: `std::numeric_limits<EdgeDuration>::max()` for
the 32-bit signed `EdgeDuration`. -/
def MAXIMAL_EDGE_DURATION : Int := 2147483647

/-- `SPECIAL_NODEID`: `std::numeric_limits<NodeID>::max()` for the 32-bit
unsigned `NodeID`, the invalid-node sentinel. -/
def SPECIAL_NODEID : Nat := 4294967295

/-- The per-node payload of the many-to-many query heap: the heap key (best
known path weight) together with `ManyToManyHeapData` (`parent`, `duration`).
Modelled from the spec: the heap is an external collaborator; a node entry
stores `key` = best known path cost and `data` = parent node id plus
cumulative secondary cost. -/
structure HeapEntry where
  key : Int
  parent : Nat
  duration : Int
deriving DecidableEq

/-- Modelled from the spec: the addressable min-priority queue
(`ManyToManyQueryHeap`, an external collaborator).  `entries` is the
node-indexed storage (`none` = the node was never inserted into this heap),
`active` is the set of inserted-but-not-yet-deleted nodes, kept as a list. -/
structure QueryHeap where
  entries : Nat → Option HeapEntry
  active : List Nat

/-- `query_heap.WasInserted(n)`. -/
def QueryHeap.wasInserted (h : QueryHeap) (n : Nat) : Bool :=
  (h.entries n).isSome

/-- `query_heap.GetKey(n)` (meaningful only for inserted nodes). -/
def QueryHeap.getKey (h : QueryHeap) (n : Nat) : Int :=
  ((h.entries n).getD ⟨0, n, 0⟩).key

/-- `query_heap.GetData(n).parent`. -/
def QueryHeap.getParent (h : QueryHeap) (n : Nat) : Nat :=
  ((h.entries n).getD ⟨0, n, 0⟩).parent

/-- `query_heap.GetData(n).duration`. -/
def QueryHeap.getDuration (h : QueryHeap) (n : Nat) : Int :=
  ((h.entries n).getD ⟨0, n, 0⟩).duration

/-- `query_heap.Insert(n, k, {p, d})`: fresh entry, node becomes active. -/
def QueryHeap.insert (h : QueryHeap) (n : Nat) (k : Int) (p : Nat) (d : Int) :
    QueryHeap :=
  ⟨fun m => if m = n then some ⟨k, p, d⟩ else h.entries m, n :: h.active⟩

/-- The combined effect of `query_heap.GetData(n) = {p, d}` followed by
`query_heap.DecreaseKey(n, k)`: the stored entry is overwritten, membership
in the queue is unchanged. -/
def QueryHeap.updateEntry (h : QueryHeap) (n : Nat) (k : Int) (p : Nat)
    (d : Int) : QueryHeap :=
  ⟨fun m => if m = n then some ⟨k, p, d⟩ else h.entries m, h.active⟩

/-- Helper for `DeleteMin`: the active node with the smallest key (first
occurrence wins on key ties). -/
def minKeyNode (h : QueryHeap) : List Nat → Nat → Nat
  | [], best => best
  | n :: ns, best => minKeyNode h ns (if h.getKey n < h.getKey best then n else best)

/-- `query_heap.DeleteMin()`: pops the minimum-key active node; `none` when
the heap is empty.  The node's entry (key, parent, duration) stays readable
after deletion, as in the source heap. -/
def QueryHeap.deleteMin (h : QueryHeap) : Option (Nat × QueryHeap) :=
  match h.active with
  | [] => none
  | a :: rest =>
    let m := minKeyNode h rest a
    some (m, ⟨h.entries, (a :: rest).erase m⟩)

/-- One adjacency record: `facade.GetTarget(edge)` plus
`facade.GetEdgeData(edge)` (`weight`, `duration`, `forward`, `backward`). -/
structure EdgeData where
  target : Nat
  weight : Int
  duration : Int
  forward : Bool
  backward : Bool
deriving DecidableEq

/-- The read-only graph accessor (`DataFacade`).  `adjacency` gives
`GetAdjacentEdgeRange`/`GetEdgeData` for each node id below
`GetNumberOfNodes() = adjacency.length`.  The remaining fields are modelled
from the spec: `selfLoopWeight`/`selfLoopDuration` are
`getLoopWeight<false/true>` (`none` = `INVALID_EDGE_WEIGHT`, i.e. no
self-loop); `stall` is `stallAtNode<DIRECTION>`, whose contract here is only
"returns true ⇒ skip this node's expansion". -/
structure Facade where
  adjacency : List (List EdgeData)
  selfLoopWeight : Nat → Option Int
  selfLoopDuration : Nat → Int
  stall : Bool → Nat → Int → QueryHeap → Bool

/-- `facade.GetNumberOfNodes()`. -/
def Facade.numNodes (f : Facade) : Nat := f.adjacency.length

/-- `facade.GetAdjacentEdgeRange(n)` together with edge data lookup. -/
def Facade.adjacent (f : Facade) (n : Nat) : List EdgeData :=
  f.adjacency.getD n []

/-- Well-formedness of the finite graph: every edge target is a node id. -/
def Facade.WF (f : Facade) : Prop :=
  ∀ l ∈ f.adjacency, ∀ e ∈ l, e.target < f.adjacency.length

instance (f : Facade) : Decidable f.WF := by
  unfold Facade.WF; infer_instance

/-- The lexicographic comparison `std::tie(w1, d1) < std::tie(w2, d2)`. -/
def lexLt (w1 d1 w2 d2 : Int) : Prop :=
  w1 < w2 ∨ (w1 = w2 ∧ d1 < d2)

instance (w1 d1 w2 d2 : Int) : Decidable (lexLt w1 d1 w2 d2) := by
  unfold lexLt; infer_instance

/-- `addLoopWeight(facade, node, weight, duration)` (lines 21-42): the CH
self-loop correction for a negative candidate weight.  The C++ returns a
`bool` and mutates `weight`/`duration` in place; the corrected pair is
returned here as `some (weight, duration)`, and `false` (no self-loop, or the
corrected weight still negative) as `none`. -/
def addLoopWeight (facade : Facade) (node : Nat) (weight duration : Int) :
    Option (Int × Int) :=
  match facade.selfLoopWeight node with
  | some loop_weight =>
    if 0 ≤ weight + loop_weight then
      some (weight + loop_weight, duration + facade.selfLoopDuration node)
    else
      none
  | none => none

/-- Processing of a single usable-or-not adjacency edge inside the
`for (auto edge : facade.GetAdjacentEdgeRange(node))` loop of
`relaxOutgoingEdges` (lines 57-84).  `dir = true` is `FORWARD_DIRECTION`. -/
def processEdge (node : Nat) (weight duration : Int) (dir : Bool)
    (h : QueryHeap) (data : EdgeData) : QueryHeap :=
  if (if dir then data.forward else data.backward) then
    let toNode := data.target
    let to_weight := weight + data.weight
    let to_duration := duration + data.duration
    if ¬ h.wasInserted toNode then
      h.insert toNode to_weight node to_duration
    else if lexLt to_weight to_duration (h.getKey toNode) (h.getDuration toNode) then
      h.updateEntry toNode to_weight node to_duration
    else
      h
  else
    h

/-- `relaxOutgoingEdges<DIRECTION>` (lines 44-85): stall check, then the edge
loop. -/
def relaxOutgoingEdges (facade : Facade) (dir : Bool) (node : Nat)
    (weight duration : Int) (h : QueryHeap) : QueryHeap :=
  if facade.stall dir node weight h then
    h
  else
    (facade.adjacent node).foldl (processEdge node weight duration dir) h

/-- `NodeBucket` (from `many_to_many.hpp`, outside this translation unit):
one entry per node settled by a backward search. -/
structure NodeBucket where
  middle_node : Nat
  parent_node : Nat
  column_index : Nat
  weight : Int
  duration : Int
deriving DecidableEq

/-- Modelled from the spec: the bucket-list order used by `std::sort` at line
242 — sorted by `middle_node` (primary), ties broken by `column_index`, so
that both the by-node probe of the forward sweep and the by-(node, column)
probe of path reconstruction can binary-search the list. -/
def bucketLe (a b : NodeBucket) : Prop :=
  a.middle_node < b.middle_node ∨
    (a.middle_node = b.middle_node ∧ a.column_index ≤ b.column_index)

instance : DecidableRel bucketLe := fun a b => by unfold bucketLe; infer_instance

instance : IsTotal NodeBucket bucketLe := ⟨by intro a b; unfold bucketLe; omega⟩

instance : IsTrans NodeBucket bucketLe := ⟨by
  intro a b c h1 h2; unfold bucketLe at *; omega⟩

/-- `std::sort(search_space_with_buckets.begin(), ...)` (line 242), modelled
as a comparator sort with the order `bucketLe`. -/
def sortBuckets (l : List NodeBucket) : List NodeBucket :=
  List.insertionSort bucketLe l

/-- The strict form of the probe order of `NodeBucket::ColumnCompare(c)`:
bucket `b` is ordered before the probe `(n, c)`.  Modelled from the spec
("ties broken by `column_index` when probing a specific column"). -/
def columnLt (b : NodeBucket) (n c : Nat) : Prop :=
  b.middle_node < n ∨ (b.middle_node = n ∧ b.column_index < c)

instance (b : NodeBucket) (n c : Nat) : Decidable (columnLt b n c) := by
  unfold columnLt; infer_instance

/-- The position `std::equal_range(..., n, NodeBucket::ColumnCompare(c)).first`
as an index into the bucket list: the first position whose entry is not
ordered before the probe.  On a list sorted by `bucketLe` (every use in the
source) this is exactly what the binary search of `std::lower_bound`
returns. -/
def columnLowerBound (l : List NodeBucket) (n c : Nat) : Nat :=
  (l.takeWhile (fun b => decide (columnLt b n c))).length

/-- The range `std::equal_range(..., node, NodeBucket::Compare())` (lines
102-105) iterated by the forward sweep: on a list sorted by `bucketLe` this
is the contiguous run of entries whose `middle_node` equals `node`. -/
def bucketRange (l : List NodeBucket) (n : Nat) : List NodeBucket :=
  (l.dropWhile (fun b => decide (b.middle_node < n))).takeWhile
    (fun b => decide (b.middle_node ≤ n))

/-- The three result matrices of `manyToManySearch` (lines 215-217), row-major
flattened vectors of size `sources × targets`. -/
structure Tables where
  weights : List Int
  durations : List Int
  middles : List Nat
deriving DecidableEq

/-- The freshly initialised matrices: `INVALID_EDGE_WEIGHT`,
`MAXIMAL_EDGE_DURATION` and `SPECIAL_NODEID` in every cell. -/
def mkTables (n : Nat) : Tables :=
  ⟨List.replicate n INVALID_EDGE_WEIGHT,
   List.replicate n MAXIMAL_EDGE_DURATION,
   List.replicate n SPECIAL_NODEID⟩

/-- The body of the bucket loop of `forwardRoutingStep` (lines 106-135) for
one bucket entry: candidate sum, negative-weight correction, and the update
of the three matrix cells.  Faithful to the source: the corrected branch takes
`std::min` of weight and duration independently and stores the middle node
unconditionally, while the non-negative branch updates all three cells only
on a lexicographically smaller candidate. -/
def processBucket (facade : Facade) (node : Nat)
    (source_weight source_duration : Int) (row_idx number_of_targets : Nat)
    (t : Tables) (b : NodeBucket) : Tables :=
  let idx := row_idx * number_of_targets + b.column_index
  let current_weight := t.weights.getD idx 0
  let current_duration := t.durations.getD idx 0
  let new_weight := source_weight + b.weight
  let new_duration := source_duration + b.duration
  if new_weight < 0 then
    match addLoopWeight facade node new_weight new_duration with
    | some (w, d) =>
      ⟨t.weights.set idx (min current_weight w),
       t.durations.set idx (min current_duration d),
       t.middles.set idx node⟩
    | none => t
  else if lexLt new_weight new_duration current_weight current_duration then
    ⟨t.weights.set idx new_weight,
     t.durations.set idx new_duration,
     t.middles.set idx node⟩
  else
    t

/-- `forwardRoutingStep` (lines 87-139): pop the minimum node, merge every
bucket entry of that node into the matrices, relax forward edges.  Also
returns the settled `(node, weight, duration)` triple as a ghost
observation. -/
def forwardRoutingStep (facade : Facade) (row_idx number_of_targets : Nat)
    (buckets : List NodeBucket) (h : QueryHeap) (t : Tables) :
    Option (QueryHeap × Tables × (Nat × Int × Int)) :=
  match h.deleteMin with
  | none => none
  | some (node, h1) =>
    let source_weight := h1.getKey node
    let source_duration := h1.getDuration node
    let t1 := (bucketRange buckets node).foldl
      (processBucket facade node source_weight source_duration row_idx
        number_of_targets) t
    let h2 := relaxOutgoingEdges facade true node source_weight
      source_duration h1
    some (h2, t1, (node, source_weight, source_duration))

/-- The forward `while (!query_heap.Empty())` loop (lines 269-280), with fuel.
Returns the final matrices and the list of settled nodes (with their costs)
in settling order; `none` on fuel exhaustion. -/
def forwardSweep (facade : Facade) (row_idx number_of_targets : Nat)
    (buckets : List NodeBucket) :
    Nat → QueryHeap → Tables → Option (Tables × List (Nat × Int × Int))
  | 0, h, t =>
    match h.deleteMin with
    | none => some (t, [])
    | some _ => none
  | fuel + 1, h, t =>
    match forwardRoutingStep facade row_idx number_of_targets buckets h t with
    | none => some (t, [])
    | some (h2, t1, s) =>
      match forwardSweep facade row_idx number_of_targets buckets fuel h2 t1 with
      | some (t2, tr) => some (t2, s :: tr)
      | none => none

/-- `backwardRoutingStep` (lines 141-158): pop the minimum node, append its
bucket entry, relax backward edges. -/
def backwardRoutingStep (facade : Facade) (column_idx : Nat) (h : QueryHeap)
    (buckets : List NodeBucket) : Option (QueryHeap × List NodeBucket) :=
  match h.deleteMin with
  | none => none
  | some (node, h1) =>
    let target_weight := h1.getKey node
    let target_duration := h1.getDuration node
    let parent := h1.getParent node
    let buckets1 := buckets ++
      [⟨node, parent, column_idx, target_weight, target_duration⟩]
    some (relaxOutgoingEdges facade false node target_weight target_duration h1,
      buckets1)

/-- The backward `while (!query_heap.Empty())` loop (lines 235-238), with
fuel. -/
def backwardSweep (facade : Facade) (column_idx : Nat) :
    Nat → QueryHeap → List NodeBucket → Option (List NodeBucket)
  | 0, h, buckets =>
    match h.deleteMin with
    | none => some buckets
    | some _ => none
  | fuel + 1, h, buckets =>
    match backwardRoutingStep facade column_idx h buckets with
    | none => some buckets
    | some (h1, buckets1) => backwardSweep facade column_idx fuel h1 buckets1

/-- Modelled from the spec: a phantom node is one or two graph-anchored
positions with associated offset costs — here a list of
`(node, offset weight, offset duration)` anchors. -/
structure PhantomNode where
  anchors : List (Nat × Int × Int)
deriving DecidableEq

/-- `phantom_nodes[index]` with an empty phantom for an out-of-range index. -/
def getPhantom (phantoms : List PhantomNode) (i : Nat) : PhantomNode :=
  phantoms.getD i ⟨[]⟩

/-- Modelled from the spec: `insertTargetInHeap` — seed the heap with the
phantom's anchor node(s), cost = phantom offset, parent = self. -/
def insertTargetInHeap (h : QueryHeap) (p : PhantomNode) : QueryHeap :=
  p.anchors.foldl (fun h a => h.insert a.1 a.2.1 a.1 a.2.2) h

/-- Modelled from the spec: `insertSourceInHeap`, symmetric to the target
seeding. -/
def insertSourceInHeap (h : QueryHeap) (p : PhantomNode) : QueryHeap :=
  p.anchors.foldl (fun h a => h.insert a.1 a.2.1 a.1 a.2.2) h

/-- The heap right after `InitializeOrClearManyToManyThreadLocalStorage`:
fully reset. -/
def emptyHeap : QueryHeap := ⟨fun _ => none, []⟩

/-- The backward phase (lines 224-239): one backward sweep per target column,
appending into the shared bucket list.  The argument list carries
`(column_idx, index into phantom_nodes)` pairs, i.e. `target_indices`
enumerated. -/
def backwardCols (facade : Facade) (phantoms : List PhantomNode) (fuel : Nat) :
    List (Nat × Nat) → List NodeBucket → Option (List NodeBucket)
  | [], buckets => some buckets
  | (column_idx, index) :: rest, buckets =>
    match backwardSweep facade column_idx fuel
        (insertTargetInHeap emptyHeap (getPhantom phantoms index)) buckets with
    | some buckets1 => backwardCols facade phantoms fuel rest buckets1
    | none => none

/-- The forward phase (lines 257-281): one forward sweep per source row over
the frozen sorted bucket list.  The argument list carries
`(row_idx, index into phantom_nodes)` pairs, i.e. `source_indices`
enumerated.  The per-row settled-node lists are returned as ghost
observations. -/
def forwardRows (facade : Facade) (phantoms : List PhantomNode)
    (number_of_targets : Nat) (buckets : List NodeBucket) (fuel : Nat) :
    List (Nat × Nat) → Tables → Option (Tables × List (List (Nat × Int × Int)))
  | [], t => some (t, [])
  | (row_idx, index) :: rest, t =>
    match forwardSweep facade row_idx number_of_targets buckets fuel
        (insertSourceInHeap emptyHeap (getPhantom phantoms index)) t with
    | some (t1, tr) =>
      match forwardRows facade phantoms number_of_targets buckets fuel rest t1 with
      | some (t2, trs) => some (t2, tr :: trs)
      | none => none
    | none => none

/-- `manyToManySearch` (lines 204-410): initialise the matrices, run the
backward sweeps, sort the bucket list, run the forward sweeps, and return
`durations_table` (the `durations` field of the resulting `Tables`).  The
full tables, the sorted bucket list and the per-row settled-node lists are
kept as ghost outputs; the debug printing block (lines 244-254, 284-395)
neither reads nor writes the matrices and is omitted. -/
def manyToManySearch (facade : Facade) (phantoms : List PhantomNode)
    (source_indices target_indices : List Nat) (fuel : Nat) :
    Option (Tables × List NodeBucket × List (List (Nat × Int × Int))) :=
  match backwardCols facade phantoms fuel target_indices.enum [] with
  | none => none
  | some buckets =>
    let sorted := sortBuckets buckets
    match forwardRows facade phantoms target_indices.length sorted fuel
        source_indices.enum
        (mkTables (source_indices.length * target_indices.length)) with
    | none => none
    | some (t, traces) => some (t, sorted, traces)

/-- The possible outcomes of the embedded `retrievePackedPathFromSearchSpace`:
a normal return, an out-of-range bucket-list read (dereferencing the end
iterator — undefined behaviour in the C++), or fuel exhaustion of the
parent-following loop. -/
inductive RetrieveResult where
  | ok : List Nat → RetrieveResult
  | outOfRange : RetrieveResult
  | noFuel : RetrieveResult
deriving DecidableEq

/-- The `while` loop of `retrievePackedPathFromSearchSpace` (lines 190-199).
`i` is the current `bucket_list.first` position.  The C++ condition
dereferences `first` before comparing it with `end()`, so a position past the
end is an out-of-range read; when the entry's `parent_node` equals its
`middle_node` the loop exits normally; otherwise the parent is appended and
the next lower-bound position (for the parent, same column) is probed. -/
def retrieveLoop (l : List NodeBucket) (c : Nat) :
    Nat → Nat → List Nat → RetrieveResult
  | 0, _, _ => .noFuel
  | fuel + 1, i, acc =>
    match l[i]? with
    | none => .outOfRange
    | some b =>
      if b.parent_node = b.middle_node then .ok acc
      else
        retrieveLoop l c fuel (columnLowerBound l b.parent_node c)
          (acc ++ [b.parent_node])

/-- `retrievePackedPathFromSearchSpace(middle_node, column_idx, buckets)`
(lines 162-202): seed `packed_path` with the `middle_node` field of the entry
at the initial lower-bound position (an out-of-range read when that position
is the end of the list), then run the parent-following loop. -/
def retrievePackedPathFromSearchSpace (middle_node : Nat) (column_idx : Nat)
    (l : List NodeBucket) (fuel : Nat) : RetrieveResult :=
  let i := columnLowerBound l middle_node column_idx
  match l[i]? with
  | none => .outOfRange
  | some b => retrieveLoop l column_idx fuel i [b.middle_node]

/-- The membership test "bucket entry for node `x` in column `c`". -/
def bucketProbe (x c : Nat) (b : NodeBucket) : Bool :=
  b.middle_node == x && b.column_index == c

/-- Modelled from the spec (the claimed walk of C2, for comparison with the
source routine): starting from the bucket entry matching
`(middle_node, column)`, repeatedly follow `parent_node` to the next bucket
entry for the same column, appending each visited node, until
`parent_node = middle_node` of the current entry (flag `true`) or no entry
exists for that node in that column (flag `false`); `none` on fuel
exhaustion. -/
def claimWalk (l : List NodeBucket) (c : Nat) :
    Nat → Nat → List Nat → Option (List Nat × Bool)
  | 0, _, _ => none
  | fuel + 1, x, acc =>
    match l.find? (bucketProbe x c) with
    | none => some (acc, false)
    | some b =>
      if b.parent_node = b.middle_node then some (acc, true)
      else claimWalk l c fuel b.parent_node (acc ++ [b.parent_node])

/-- The rejection condition of the negative-weight rule for a candidate
formed from a settled node `(node, sw, sd)` and a bucket entry `b`: the
summed weight is negative and the self-loop correction fails. -/
def Rejected (facade : Facade) (node : Nat) (sw sd : Int) (b : NodeBucket) :
    Prop :=
  sw + b.weight < 0 ∧
    addLoopWeight facade node (sw + b.weight) (sd + b.duration) = none

instance (facade : Facade) (node : Nat) (sw sd : Int) (b : NodeBucket) :
    Decidable (Rejected facade node sw sd b) := by
  unfold Rejected; infer_instance

/-- The number of node ids of the graph that were never inserted into the
heap. -/
def uninsertedCount (facade : Facade) (h : QueryHeap) : Nat :=
  (List.range facade.numNodes).countP (fun n => (h.entries n).isNone)

/-- Termination measure of a settle loop: every iteration pops one active
node and inserts each previously-uninserted neighbour at most once, so
twice the uninserted count plus the active count strictly decreases. -/
def heapMeasure (facade : Facade) (h : QueryHeap) : Nat :=
  2 * uninsertedCount facade h + h.active.length

/-- The largest number of anchors of any phantom node, used to bound the
initial heap measure of a seeded search. -/
def maxAnchorCount (phantoms : List PhantomNode) : Nat :=
  phantoms.foldr (fun p m => max p.anchors.length m) 0

/-! Concrete instances used to evaluate the embedded routines. -/

/-- A facade whose node `7` carries a self-loop of weight `3` and duration
`0`; no adjacency edges, no stalling. -/
def exFacadeLoop : Facade :=
  ⟨[[]], fun n => if n = 7 then some 3 else none, fun _ => 0, fun _ _ _ _ => false⟩

/-- A `1 × 1` matrix state whose single cell already stores
`(weight, duration, middle) = (2, 1, 42)`. -/
def exTablesC1 : Tables := ⟨[2], [1], [42]⟩

/-- A bucket entry for column `0` carrying `(weight, duration) = (-1, 1)`. -/
def exBucketC1 : NodeBucket := ⟨9, 9, 0, -1, 1⟩

/-- Bucket list for the C2 counterexample: the entry for node `1` in column
`0` has parent `0`, but node `0` only has an entry for column `1` (whose own
parent field is `5`). -/
def exBucketsC2 : List NodeBucket := [⟨0, 5, 1, 0, 0⟩, ⟨1, 0, 0, 0, 0⟩]

/-- Bucket list with a proper parent chain in column `0`:
`3 → 2`, and `2` is a self-referential root. -/
def exBucketsChain : List NodeBucket := [⟨2, 2, 0, 0, 0⟩, ⟨3, 2, 0, 0, 0⟩]

/-- Bucket list holding a single self-referential entry for node `1`,
column `0`. -/
def exBucketsC4 : List NodeBucket := [⟨1, 1, 0, 0, 0⟩]

/-- Bucket list whose single column-`0` entry for node `5` names a parent
(`9`) that has no bucket entry at all. -/
def exBucketsC10 : List NodeBucket := [⟨5, 9, 0, 0, 0⟩]

/-- A two-node facade with no edges at all. -/
def exFacadeTwo : Facade :=
  ⟨[[], []], fun _ => none, fun _ => 0, fun _ _ _ _ => false⟩

/-- Phantom `0` anchored at node `0`, phantom `1` anchored at node `1`, both
with zero offsets. -/
def exPhantoms : List PhantomNode := [⟨[(0, 0, 0)]⟩, ⟨[(1, 0, 0)]⟩]

/-- A facade that always stalls. -/
def exFacadeStall : Facade :=
  ⟨[[]], fun _ => none, fun _ => 0, fun _ _ _ _ => true⟩

/-- An edge usable forward only, to node `3`, with weight `5`, duration `7`. -/
def exEdgeFwd : EdgeData := ⟨3, 5, 7, true, false⟩

/-- A heap holding only node `3`, key `10`, parent `3`, duration `10`. -/
def exHeapWith3 : QueryHeap := (emptyHeap.insert 3 10 3 10)

/-! Theorems. -/

/-- C1, counterexample.  With the cell for `(row 0, column 0)` already storing
`(weight, duration) = (2, 1)` and middle node `42`, a candidate whose sum is
`(-1, 1)` is corrected by node `7`'s self-loop to exactly `(2, 1)` — not
lexicographically smaller than the stored pair, a tie.  The claim demands
the earlier candidate be kept and the middle-node cell left unchanged; the
source's corrected branch nevertheless overwrites the middle-node cell with
`7`. -/
theorem c1_tie_overwrites_middle_counterexample :
    addLoopWeight exFacadeLoop 7 (-1) 1 = some (2, 1) ∧
    exTablesC1.weights.getD 0 0 = 2 ∧
    exTablesC1.durations.getD 0 0 = 1 ∧
    ¬ lexLt 2 1 2 1 ∧
    exTablesC1.middles = [42] ∧
    (processBucket exFacadeLoop 7 0 0 0 1 exTablesC1 exBucketC1).middles = [7] := by
  decide

/-- C1 (amended).  In the non-negative branch the three cells move to the
candidate values exactly when the candidate pair is lexicographically
smaller than the stored pair (ties keep the earlier candidate).  In the
corrected branch (negative sum, successful self-loop correction) the weight
and the duration cells take independent minima against the corrected values
and the middle-node cell is set to `node` unconditionally.  A discarded
candidate changes nothing, and no other cell is ever touched. -/
theorem c1_amended_cell_update_rule (facade : Facade) (node : Nat)
    (source_weight source_duration : Int) (row_idx number_of_targets : Nat)
    (t : Tables) (b : NodeBucket)
    (hw : row_idx * number_of_targets + b.column_index < t.weights.length)
    (hd : row_idx * number_of_targets + b.column_index < t.durations.length)
    (hm : row_idx * number_of_targets + b.column_index < t.middles.length) :
    let idx := row_idx * number_of_targets + b.column_index
    let t1 := processBucket facade node source_weight source_duration row_idx
      number_of_targets t b
    let new_weight := source_weight + b.weight
    let new_duration := source_duration + b.duration
    (0 ≤ new_weight →
      lexLt new_weight new_duration (t.weights.getD idx 0) (t.durations.getD idx 0) →
      t1.weights.getD idx 0 = new_weight ∧
      t1.durations.getD idx 0 = new_duration ∧
      t1.middles.getD idx 0 = node) ∧
    (0 ≤ new_weight →
      ¬ lexLt new_weight new_duration (t.weights.getD idx 0) (t.durations.getD idx 0) →
      t1 = t) ∧
    (∀ w d, new_weight < 0 →
      addLoopWeight facade node new_weight new_duration = some (w, d) →
      t1.weights.getD idx 0 = min (t.weights.getD idx 0) w ∧
      t1.durations.getD idx 0 = min (t.durations.getD idx 0) d ∧
      t1.middles.getD idx 0 = node) ∧
    (new_weight < 0 →
      addLoopWeight facade node new_weight new_duration = none →
      t1 = t) ∧
    (∀ j, j ≠ idx →
      t1.weights.getD j 0 = t.weights.getD j 0 ∧
      t1.durations.getD j 0 = t.durations.getD j 0 ∧
      t1.middles.getD j 0 = t.middles.getD j 0) := by
  intro idx t1 new_weight new_duration
  have hset : ∀ (l : List Int) (i j : Nat) (v : Int), i ≠ j →
      (l.set i v).getD j 0 = l.getD j 0 := by
    intro l i j v hij
    simp [List.getD_eq_getElem?_getD, List.getElem?_set_ne hij]
  have hsetN : ∀ (l : List Nat) (i j : Nat) (v : Nat), i ≠ j →
      (l.set i v).getD j 0 = l.getD j 0 := by
    intro l i j v hij
    simp [List.getD_eq_getElem?_getD, List.getElem?_set_ne hij]
  have hself : ∀ (l : List Int) (i : Nat) (v : Int), i < l.length →
      (l.set i v).getD i 0 = v := by
    intro l i v hi
    simp [List.getD_eq_getElem?_getD, List.getElem?_set_self hi]
  have hselfN : ∀ (l : List Nat) (i : Nat) (v : Nat), i < l.length →
      (l.set i v).getD i 0 = v := by
    intro l i v hi
    simp [List.getD_eq_getElem?_getD, List.getElem?_set_self hi]
  refine ⟨?_, ?_, ?_, ?_, ?_⟩
  · intro hpos hlex
    have hneg : ¬ (new_weight < 0) := by omega
    simp only [t1, processBucket, if_neg hneg, if_pos hlex]
    exact ⟨hself _ _ _ hw, hself _ _ _ hd, hselfN _ _ _ hm⟩
  · intro hpos hlex
    have hneg : ¬ (new_weight < 0) := by omega
    simp only [t1, processBucket, if_neg hneg, if_neg hlex]
  · intro w d hneg hsome
    simp only [t1, processBucket, if_pos hneg, hsome]
    exact ⟨hself _ _ _ hw, hself _ _ _ hd, hselfN _ _ _ hm⟩
  · intro hneg hnone
    simp only [t1, processBucket, if_pos hneg, hnone]
  · intro j hj
    simp only [t1, processBucket]
    by_cases hneg : new_weight < 0
    · simp only [if_pos hneg]
      cases addLoopWeight facade node new_weight new_duration with
      | some wd =>
        cases wd with
        | mk w d =>
          exact ⟨hset _ _ _ _ (Ne.symm hj), hset _ _ _ _ (Ne.symm hj),
            hsetN _ _ _ _ (Ne.symm hj)⟩
      | none =>
        exact ⟨rfl, rfl, rfl⟩
    · simp only [if_neg hneg]
      by_cases hlex :
          lexLt new_weight new_duration (t.weights.getD idx 0) (t.durations.getD idx 0)
      · simp only [if_pos hlex]
        exact ⟨hset _ _ _ _ (Ne.symm hj), hset _ _ _ _ (Ne.symm hj),
          hsetN _ _ _ _ (Ne.symm hj)⟩
      · rw [if_neg hlex]
        exact ⟨rfl, rfl, rfl⟩

/-- Witness for `c1_amended_cell_update_rule`: all five conjuncts evaluated
at the concrete instance of the counterexample. -/
theorem c1_amended_cell_update_rule_witness :
    ((processBucket exFacadeLoop 7 0 0 0 1 exTablesC1 exBucketC1).weights.getD 0 0 =
      min 2 2 ∧
     (processBucket exFacadeLoop 7 0 0 0 1 exTablesC1 exBucketC1).durations.getD 0 0 =
      min 1 1 ∧
     (processBucket exFacadeLoop 7 0 0 0 1 exTablesC1 exBucketC1).middles.getD 0 0 = 7) ∧
    processBucket exFacadeLoop 7 3 0 0 1 exTablesC1 ⟨9, 9, 0, -1, 1⟩ = exTablesC1 ∧
    (∀ j, j ≠ 0 →
      (processBucket exFacadeLoop 7 0 0 0 1 exTablesC1 exBucketC1).weights.getD j 0 =
        exTablesC1.weights.getD j 0 ∧
      (processBucket exFacadeLoop 7 0 0 0 1 exTablesC1 exBucketC1).durations.getD j 0 =
        exTablesC1.durations.getD j 0 ∧
      (processBucket exFacadeLoop 7 0 0 0 1 exTablesC1 exBucketC1).middles.getD j 0 =
        exTablesC1.middles.getD j 0) := by
  refine ⟨?_, ?_, ?_⟩
  · exact (c1_amended_cell_update_rule exFacadeLoop 7 0 0 0 1 exTablesC1 exBucketC1
      (by decide) (by decide) (by decide)).2.2.1 2 1 (by decide) (by decide)
  · exact (c1_amended_cell_update_rule exFacadeLoop 7 3 0 0 1 exTablesC1
      ⟨9, 9, 0, -1, 1⟩ (by decide) (by decide) (by decide)).2.1 (by decide) (by decide)
  · exact (c1_amended_cell_update_rule exFacadeLoop 7 0 0 0 1 exTablesC1 exBucketC1
      (by decide) (by decide) (by decide)).2.2.2.2

/-- C3.  The self-loop correction: with no self-loop the candidate is
discarded; with a self-loop whose addition leaves the weight negative the
candidate is discarded; otherwise the corrected weight is the (negative)
summed weight plus the self-loop weight and the corrected duration is the
summed duration plus the self-loop duration.  A discarded candidate leaves
every matrix cell unchanged. -/
theorem c3_self_loop_correction (facade : Facade) (node : Nat)
    (weight duration lw : Int) (source_weight source_duration : Int)
    (row_idx number_of_targets : Nat) (t : Tables) (b : NodeBucket) :
    (facade.selfLoopWeight node = none →
      addLoopWeight facade node weight duration = none) ∧
    (facade.selfLoopWeight node = some lw → weight + lw < 0 →
      addLoopWeight facade node weight duration = none) ∧
    (facade.selfLoopWeight node = some lw → 0 ≤ weight + lw →
      addLoopWeight facade node weight duration =
        some (weight + lw, duration + facade.selfLoopDuration node)) ∧
    (source_weight + b.weight < 0 →
      addLoopWeight facade node (source_weight + b.weight)
        (source_duration + b.duration) = none →
      processBucket facade node source_weight source_duration row_idx
        number_of_targets t b = t) := by
  refine ⟨?_, ?_, ?_, ?_⟩
  · intro hnone
    simp [addLoopWeight, hnone]
  · intro hsome hlt
    simp [addLoopWeight, hsome, if_neg (by omega : ¬ (0 ≤ weight + lw))]
  · intro hsome hge
    simp [addLoopWeight, hsome, if_pos hge]
  · intro hneg hnone
    simp only [processBucket, if_pos hneg, hnone]

/-- Witness for `c3_self_loop_correction`, evaluated at node `7` of
`exFacadeLoop` (loop weight `3`, loop duration `0`) and at node `0` (no
self-loop). -/
theorem c3_self_loop_correction_witness :
    addLoopWeight exFacadeLoop 0 (-1) 1 = none ∧
    addLoopWeight exFacadeLoop 7 (-5) 1 = none ∧
    addLoopWeight exFacadeLoop 7 (-1) 1 = some (-1 + 3, 1 + 0) ∧
    processBucket exFacadeLoop 7 0 0 0 1 exTablesC1 ⟨9, 9, 0, -5, 1⟩ = exTablesC1 := by
  refine ⟨?_, ?_, ?_, ?_⟩
  · exact (c3_self_loop_correction exFacadeLoop 0 (-1) 1 3 0 0 0 1 exTablesC1
      exBucketC1).1 (by decide)
  · exact (c3_self_loop_correction exFacadeLoop 7 (-5) 1 3 0 0 0 1 exTablesC1
      exBucketC1).2.1 (by decide) (by decide)
  · exact (c3_self_loop_correction exFacadeLoop 7 (-1) 1 3 0 0 0 1 exTablesC1
      exBucketC1).2.2.1 (by decide) (by decide)
  · exact (c3_self_loop_correction exFacadeLoop 7 0 0 0 0 0 0 1 exTablesC1
      ⟨9, 9, 0, -5, 1⟩).2.2.2 (by decide) (by decide)

/-- C5.  Edge relaxation: a stalled node's expansion changes nothing; an
unstalled node processes exactly its adjacency list in order; an edge whose
flag for the active direction is unset is never traversed; a usable edge to
a never-inserted neighbour inserts it with the candidate cost and parent =
current node; a usable edge to an already-inserted neighbour overwrites its
entry exactly when the candidate `(weight, duration)` is lexicographically
smaller than the recorded `(key, duration)`. -/
theorem c5_relaxation_rule (facade : Facade) (dir : Bool) (node : Nat)
    (weight duration : Int) (h : QueryHeap) (e : EdgeData) :
    (facade.stall dir node weight h = true →
      relaxOutgoingEdges facade dir node weight duration h = h) ∧
    (facade.stall dir node weight h = false →
      relaxOutgoingEdges facade dir node weight duration h =
        (facade.adjacent node).foldl (processEdge node weight duration dir) h) ∧
    ((if dir then e.forward else e.backward) = false →
      processEdge node weight duration dir h e = h) ∧
    ((if dir then e.forward else e.backward) = true →
      h.wasInserted e.target = false →
      processEdge node weight duration dir h e =
        h.insert e.target (weight + e.weight) node (duration + e.duration)) ∧
    ((if dir then e.forward else e.backward) = true →
      h.wasInserted e.target = true →
      processEdge node weight duration dir h e =
        if lexLt (weight + e.weight) (duration + e.duration)
            (h.getKey e.target) (h.getDuration e.target) then
          h.updateEntry e.target (weight + e.weight) node (duration + e.duration)
        else h) := by
  refine ⟨?_, ?_, ?_, ?_, ?_⟩
  · intro hstall
    simp [relaxOutgoingEdges, hstall]
  · intro hstall
    simp [relaxOutgoingEdges, hstall]
  · intro hflag
    simp [processEdge, hflag]
  · intro hflag hins
    simp [processEdge, hflag, hins]
  · intro hflag hins
    by_cases hlex : lexLt (weight + e.weight) (duration + e.duration)
        (h.getKey e.target) (h.getDuration e.target)
    · simp [processEdge, hflag, hins, hlex]
    · simp [processEdge, hflag, hins, hlex]

/-- Witness for `c5_relaxation_rule`: the stall case on the always-stalling
facade, and the three per-edge cases on concrete heaps. -/
theorem c5_relaxation_rule_witness :
    relaxOutgoingEdges exFacadeStall true 0 0 0 exHeapWith3 = exHeapWith3 ∧
    processEdge 0 1 2 false exHeapWith3 exEdgeFwd = exHeapWith3 ∧
    processEdge 0 1 2 true emptyHeap exEdgeFwd =
      emptyHeap.insert 3 (1 + 5) 0 (2 + 7) ∧
    processEdge 0 1 2 true exHeapWith3 exEdgeFwd =
      exHeapWith3.updateEntry 3 (1 + 5) 0 (2 + 7) := by
  refine ⟨?_, ?_, ?_, ?_⟩
  · exact (c5_relaxation_rule exFacadeStall true 0 0 0 exHeapWith3 exEdgeFwd).1 rfl
  · exact (c5_relaxation_rule exFacadeStall false 0 1 2 exHeapWith3 exEdgeFwd).2.2.1 rfl
  · exact (c5_relaxation_rule exFacadeStall true 0 1 2 emptyHeap exEdgeFwd).2.2.2.1
      rfl rfl
  · have h := (c5_relaxation_rule exFacadeStall true 0 1 2 exHeapWith3
      exEdgeFwd).2.2.2.2 rfl rfl
    rw [h, if_pos (show lexLt (1 + exEdgeFwd.weight) (2 + exEdgeFwd.duration)
      (exHeapWith3.getKey exEdgeFwd.target) (exHeapWith3.getDuration exEdgeFwd.target)
      from by decide)]
    rfl

/-- Step equation: the claimed walk when the probe finds an entry. -/
theorem claimWalk_succ_some (l : List NodeBucket) (c fuel x : Nat)
    (acc : List Nat) (b : NodeBucket)
    (hfind : l.find? (bucketProbe x c) = some b) :
    claimWalk l c (fuel + 1) x acc =
      if b.parent_node = b.middle_node then some (acc, true)
      else claimWalk l c fuel b.parent_node (acc ++ [b.parent_node]) := by
  simp only [claimWalk, hfind]

/-- Step equation: the claimed walk when the probe finds nothing. -/
theorem claimWalk_succ_none (l : List NodeBucket) (c fuel x : Nat)
    (acc : List Nat) (hfind : l.find? (bucketProbe x c) = none) :
    claimWalk l c (fuel + 1) x acc = some (acc, false) := by
  simp only [claimWalk, hfind]

/-- Step equation: the source loop when the current position is in range. -/
theorem retrieveLoop_succ_some (l : List NodeBucket) (c fuel i : Nat)
    (acc : List Nat) (b : NodeBucket) (hb : l[i]? = some b) :
    retrieveLoop l c (fuel + 1) i acc =
      if b.parent_node = b.middle_node then .ok acc
      else retrieveLoop l c fuel (columnLowerBound l b.parent_node c)
        (acc ++ [b.parent_node]) := by
  simp only [retrieveLoop, hb]

/-- On a bucket list sorted by `bucketLe`, if a first entry matching
`(x, c)` exists (`find?`), the `ColumnCompare` lower-bound position holds
exactly that entry. -/
theorem columnLowerBound_find (l : List NodeBucket) (x c : Nat)
    (b : NodeBucket) (hsort : List.Pairwise bucketLe l)
    (hfind : l.find? (bucketProbe x c) = some b) :
    l[columnLowerBound l x c]? = some b := by
  induction l with
  | nil => simp at hfind
  | cons bb tl ih =>
    rcases List.pairwise_cons.mp hsort with ⟨hhead, htail⟩
    by_cases hbb : bucketProbe x c bb = true
    · rw [List.find?_cons_of_pos _ hbb] at hfind
      have hb : bb = b := by injection hfind
      subst hb
      have hmid : bb.middle_node = x ∧ bb.column_index = c := by
        simp only [bucketProbe, Bool.and_eq_true, beq_iff_eq] at hbb
        exact hbb
      have hq : decide (columnLt bb x c) = false := by
        simp only [decide_eq_false_iff_not]
        unfold columnLt
        omega
      simp only [columnLowerBound, List.takeWhile_cons, hq]
      simp
    · rw [List.find?_cons_of_neg _ hbb] at hfind
      have hbmem : b ∈ tl := List.mem_of_find?_eq_some hfind
      have hbm : b.middle_node = x ∧ b.column_index = c := by
        have := List.find?_some hfind
        simp only [bucketProbe, Bool.and_eq_true, beq_iff_eq] at this
        exact this
      have hle : bucketLe bb b := hhead b hbmem
      have hne : ¬ (bb.middle_node = x ∧ bb.column_index = c) := by
        simp only [bucketProbe, Bool.and_eq_true, beq_iff_eq] at hbb
        exact hbb
      have hq : decide (columnLt bb x c) = true := by
        simp only [decide_eq_true_eq]
        unfold bucketLe at hle
        unfold columnLt
        omega
      simp only [columnLowerBound, List.takeWhile_cons, hq]
      simpa [columnLowerBound] using ih htail hfind

/-- The parent-following loop of the source agrees with the claimed walk
whenever the claimed walk ends at a self-referential root (so that every
lookup along the chain found a matching entry). -/
theorem retrieveLoop_agrees_claimWalk (l : List NodeBucket) (c : Nat)
    (hsort : List.Pairwise bucketLe l) :
    ∀ fuel x acc path, claimWalk l c fuel x acc = some (path, true) →
      retrieveLoop l c fuel (columnLowerBound l x c) acc = .ok path := by
  intro fuel
  induction fuel with
  | zero => intro x acc path hwalk; simp [claimWalk] at hwalk
  | succ fuel ih =>
    intro x acc path hwalk
    cases hfind : l.find? (bucketProbe x c) with
    | none =>
      rw [claimWalk_succ_none l c fuel x acc hfind] at hwalk
      simp at hwalk
    | some b =>
      rw [claimWalk_succ_some l c fuel x acc b hfind] at hwalk
      have hb := columnLowerBound_find l x c b hsort hfind
      by_cases hroot : b.parent_node = b.middle_node
      · rw [if_pos hroot] at hwalk
        have hacc : acc = path := by
          have := (Option.some.injEq _ _).mp hwalk
          exact congrArg Prod.fst this
        subst hacc
        rw [retrieveLoop_succ_some l c fuel _ acc b hb, if_pos hroot]
      · rw [if_neg hroot] at hwalk
        rw [retrieveLoop_succ_some l c fuel _ acc b hb, if_neg hroot]
        exact ih b.parent_node (acc ++ [b.parent_node]) path hwalk

/-- C2, counterexample.  In `exBucketsC2` the entry for node `1` in column
`0` has parent `0`, and node `0` has no bucket entry in column `0` (only in
column `1`).  The claimed walk therefore stops and returns `[1, 0]`.  The
source routine instead lands on the column-`1` entry of node `0` (the
lower-bound insertion position), follows that unrelated entry's parent `5`,
and then dereferences the end of the bucket list: an out-of-range read, not
the claimed clean stop. -/
theorem c2_walk_counterexample :
    claimWalk exBucketsC2 0 10 1 [1] = some ([1, 0], false) ∧
    List.Pairwise bucketLe exBucketsC2 ∧
    retrievePackedPathFromSearchSpace 1 0 exBucketsC2 10 = .outOfRange := by
  refine ⟨by decide, by decide, by decide⟩

/-- C2 (amended).  When the claimed walk from `(middle_node, column)` ends at
a self-referential root — every parent lookup along the chain finds a
matching bucket entry — the source routine returns exactly the claimed node
sequence: it begins with `middle_node` and lists the followed parents in
order.  When a parent lookup finds no matching entry, however, the source
does not stop: it continues from whatever entry sits at the lower-bound
insertion position and performs an out-of-range read when that position is
the end of the list. -/
theorem c2_amended_walk (l : List NodeBucket) (m c fuel : Nat)
    (path : List Nat) (hsort : List.Pairwise bucketLe l)
    (hwalk : claimWalk l c fuel m [m] = some (path, true)) :
    retrievePackedPathFromSearchSpace m c l fuel = .ok path := by
  cases fuel with
  | zero => simp [claimWalk] at hwalk
  | succ fuel =>
    cases hfind : l.find? (bucketProbe m c) with
    | none =>
      rw [claimWalk_succ_none l c fuel m [m] hfind] at hwalk
      simp at hwalk
    | some b =>
      have hb := columnLowerBound_find l m c b hsort hfind
      have hmid : b.middle_node = m := by
        have := List.find?_some hfind
        simp only [bucketProbe, Bool.and_eq_true, beq_iff_eq] at this
        exact this.1
      rw [retrievePackedPathFromSearchSpace, hb]
      show retrieveLoop l c (fuel + 1) (columnLowerBound l m c) [b.middle_node] =
        .ok path
      rw [hmid]
      exact retrieveLoop_agrees_claimWalk l c hsort (fuel + 1) m [m] path hwalk

/-- Witness for `c2_amended_walk`: the chain `3 → 2 → root` in
`exBucketsChain` is reconstructed as `[3, 2]`. -/
theorem c2_amended_walk_witness :
    retrievePackedPathFromSearchSpace 3 0 exBucketsChain 10 = .ok [3, 2] :=
  c2_amended_walk exBucketsChain 3 0 10 [3, 2] (by decide) (by decide)

/-- C4.  The claim says querying a path for a sentinel middle node must fail
an assertion.  The source has no such assertion: `manyToManySearch` (lines
284-287) calls `retrievePackedPathFromSearchSpace` for every column,
including cells whose middle node is still `SPECIAL_NODEID`, and the routine
then dereferences the end iterator of the bucket list — the lower bound of
the sentinel id (larger than every real node id) is the end of the list, and
the C++ loop condition reads `*first` before comparing `first` with
`end()`.  Evaluated on a one-entry bucket list: an out-of-range read, not an
assertion failure. -/
theorem c4_sentinel_middle_out_of_range :
    retrievePackedPathFromSearchSpace SPECIAL_NODEID 0 exBucketsC4 10 =
      .outOfRange := by
  decide

/-- C10.  The bucket-list accesses of `retrievePackedPathFromSearchSpace` are
not confined to entries matching the node being looked up: for the perfectly
ordinary lookup of node `5` in column `0` of `exBucketsC10` (node `5` has an
entry whose parent `9` has none), the parent probe's lower bound is the end
of the list and the loop dereferences it — a read past the end. -/
theorem c10_parent_probe_out_of_range :
    retrievePackedPathFromSearchSpace 5 0 exBucketsC10 10 = .outOfRange := by
  decide

/-- On a list whose middle nodes are all at least `n` and sorted by middle
node, keeping the prefix with middle node at most `n` is the same as
filtering the entries whose middle node equals `n`. -/
theorem takeWhile_le_eq_filter (n : Nat) :
    ∀ l : List NodeBucket,
      List.Pairwise (fun a b => a.middle_node ≤ b.middle_node) l →
      (∀ x ∈ l, n ≤ x.middle_node) →
      l.takeWhile (fun b => decide (b.middle_node ≤ n)) =
        l.filter (fun b => b.middle_node == n) := by
  intro l
  induction l with
  | nil => intro _ _; rfl
  | cons x t ih =>
    intro hpw hlo
    rcases List.pairwise_cons.mp hpw with ⟨hhead, htail⟩
    have hxn : n ≤ x.middle_node := hlo x (List.mem_cons_self x t)
    by_cases hx : x.middle_node = n
    · have hq : decide (x.middle_node ≤ n) = true := by
        simp only [decide_eq_true_eq]; omega
      have hp : (x.middle_node == n) = true := by
        simp only [beq_iff_eq]; exact hx
      rw [List.takeWhile_cons, hq, if_pos rfl]
      simp only [List.filter_cons, hp, if_true]
      exact congrArg (x :: ·) (ih htail (fun y hy => hlo y (List.mem_cons_of_mem x hy)))
    · have hgt : n < x.middle_node := by omega
      have hq : decide (x.middle_node ≤ n) = false := by
        simp only [decide_eq_false_iff_not]; omega
      have hp : (x.middle_node == n) = false := by
        simp only [beq_eq_false_iff_ne]; exact hx
      rw [List.takeWhile_cons, hq]
      simp only [Bool.false_eq_true, if_false, List.filter_cons, hp]
      symm
      rw [List.filter_eq_nil_iff]
      intro y hy
      have : x.middle_node ≤ y.middle_node := hhead y hy
      simp only [beq_iff_eq]
      omega

/-- On a list sorted by middle node, the equal-range slice for `n` is
exactly the filter by middle node `n`. -/
theorem bucketRange_sorted_eq_filter (n : Nat) :
    ∀ l : List NodeBucket,
      List.Pairwise (fun a b => a.middle_node ≤ b.middle_node) l →
      bucketRange l n = l.filter (fun b => b.middle_node == n) := by
  intro l
  induction l with
  | nil => intro _; rfl
  | cons bb tl ih =>
    intro hpw
    rcases List.pairwise_cons.mp hpw with ⟨hhead, htail⟩
    rcases Nat.lt_trichotomy bb.middle_node n with hlt | heq | hgt
    · have hq1 : decide (bb.middle_node < n) = true := by
        simp only [decide_eq_true_eq]; exact hlt
      have hp : (bb.middle_node == n) = false := by
        simp only [beq_eq_false_iff_ne]; omega
      unfold bucketRange
      rw [List.dropWhile_cons]
      simp only [hq1, if_true, List.filter_cons, hp, Bool.false_eq_true, if_false]
      exact ih htail
    · have hq1 : decide (bb.middle_node < n) = false := by
        simp only [decide_eq_false_iff_not]; omega
      have hq2 : decide (bb.middle_node ≤ n) = true := by
        simp only [decide_eq_true_eq]; omega
      have hp : (bb.middle_node == n) = true := by
        simp only [beq_iff_eq]; exact heq
      unfold bucketRange
      rw [List.dropWhile_cons]
      simp only [hq1, Bool.false_eq_true, if_false]
      rw [List.takeWhile_cons, hq2, if_pos rfl]
      simp only [List.filter_cons, hp, if_true]
      refine congrArg (bb :: ·) ?_
      exact takeWhile_le_eq_filter n tl htail
        (fun y hy => by have := hhead y hy; omega)
    · have hq1 : decide (bb.middle_node < n) = false := by
        simp only [decide_eq_false_iff_not]; omega
      have hq2 : decide (bb.middle_node ≤ n) = false := by
        simp only [decide_eq_false_iff_not]; omega
      unfold bucketRange
      rw [List.dropWhile_cons]
      simp only [hq1, Bool.false_eq_true, if_false]
      rw [List.takeWhile_cons, hq2]
      simp only [Bool.false_eq_true, if_false]
      symm
      rw [List.filter_eq_nil_iff]
      intro y hy
      rcases List.mem_cons.mp hy with hy0 | hy1
      · subst hy0; simp only [beq_iff_eq]; omega
      · have := hhead y hy1
        simp only [beq_iff_eq]
        omega

/-- C6.  After sorting, the entries sharing a middle node are contiguous —
the equal-range probe of the forward sweep returns exactly the filter of the
sorted list by that node — and, as a multiset, that range is exactly the set
of entries appended for that node in whatever column order, since sorting
permutes the list. -/
theorem c6_sorted_buckets_contiguous (bs : List NodeBucket) (n : Nat) :
    bucketRange (sortBuckets bs) n =
      (sortBuckets bs).filter (fun b => b.middle_node == n) ∧
    (bucketRange (sortBuckets bs) n).Perm
      (bs.filter (fun b => b.middle_node == n)) := by
  have hsorted : List.Pairwise bucketLe (sortBuckets bs) :=
    List.sorted_insertionSort bucketLe bs
  have hmle : List.Pairwise (fun a b => a.middle_node ≤ b.middle_node)
      (sortBuckets bs) := by
    refine hsorted.imp ?_
    intro a b h
    unfold bucketLe at h
    omega
  have h1 := bucketRange_sorted_eq_filter n (sortBuckets bs) hmle
  refine ⟨h1, ?_⟩
  rw [h1]
  exact List.Perm.filter _ (List.perm_insertionSort bucketLe bs)

/-- The minimum-key search returns one of its candidates. -/
theorem minKeyNode_mem (h : QueryHeap) :
    ∀ (l : List Nat) (best : Nat), minKeyNode h l best ∈ best :: l := by
  intro l
  induction l with
  | nil => intro best; simp [minKeyNode]
  | cons n ns ih =>
    intro best
    rw [minKeyNode]
    rcases List.mem_cons.mp (ih (if h.getKey n < h.getKey best then n else best)) with
      h0 | h1
    · rw [h0]
      by_cases hc : h.getKey n < h.getKey best
      · rw [if_pos hc]
        exact List.mem_cons_of_mem best (List.mem_cons_self n ns)
      · rw [if_neg hc]
        exact List.mem_cons_self best _
    · exact List.mem_cons_of_mem best (List.mem_cons_of_mem n h1)

/-- What `DeleteMin` guarantees: entries untouched, the popped node was
active, and the active list shrinks by exactly one (to a subset). -/
theorem deleteMin_spec (h : QueryHeap) (n : Nat) (h1 : QueryHeap)
    (hdm : h.deleteMin = some (n, h1)) :
    h1.entries = h.entries ∧ n ∈ h.active ∧
    h1.active.length + 1 = h.active.length ∧ ∀ m ∈ h1.active, m ∈ h.active := by
  unfold QueryHeap.deleteMin at hdm
  cases hact : h.active with
  | nil => rw [hact] at hdm; simp at hdm
  | cons a rest =>
    rw [hact] at hdm
    simp only [Option.some.injEq, Prod.mk.injEq] at hdm
    rcases hdm with ⟨hn, hh1⟩
    have hmem : minKeyNode h rest a ∈ a :: rest := minKeyNode_mem h rest a
    subst hn
    subst hh1
    refine ⟨rfl, hmem, ?_, ?_⟩
    · show ((a :: rest).erase (minKeyNode h rest a)).length + 1 = (a :: rest).length
      rw [List.length_erase_of_mem hmem]
      simp
    · intro m hm
      exact List.mem_of_mem_erase hm

/-- Inserting a fresh node id of the graph decreases the uninserted count by
exactly one. -/
theorem countP_isNone_update (e : HeapEntry) :
    ∀ (l : List Nat) (f : Nat → Option HeapEntry) (n : Nat), l.Nodup → n ∈ l →
      f n = none →
      l.countP (fun m => ((if m = n then some e else f m) : Option HeapEntry).isNone)
          + 1 =
        l.countP (fun m => (f m).isNone) := by
  intro l
  induction l with
  | nil => intro f n _ hmem; simp at hmem
  | cons a t ih =>
    intro f n hnodup hmem hnone
    rcases List.nodup_cons.mp hnodup with ⟨hnotmem, hnodup'⟩
    by_cases han : a = n
    · subst han
      have hp : ((if a = a then some e else f a) : Option HeapEntry).isNone = false := by
        simp
      rw [List.countP_cons_of_neg _ _ (by simp [hp])]
      rw [List.countP_cons_of_pos _ _ (by simp [hnone])]
      have hcongr : t.countP
          (fun m => ((if m = a then some e else f m) : Option HeapEntry).isNone) =
          t.countP (fun m => (f m).isNone) := by
        refine List.countP_congr ?_
        intro m hm
        have hma : m ≠ a := fun heq => hnotmem (heq ▸ hm)
        rw [if_neg hma]
      rw [hcongr]
    · rcases List.mem_cons.mp hmem with h0 | h1
      · exact absurd h0.symm han
      · have harr :
            ((if a = n then some e else f a) : Option HeapEntry).isNone = (f a).isNone := by
          rw [if_neg han]
        by_cases hpa : (f a).isNone = true
        · rw [List.countP_cons_of_pos _ _ (by rw [harr]; exact hpa)]
          rw [List.countP_cons_of_pos (fun m => (f m).isNone) _ hpa]
          have := ih f n hnodup' h1 hnone
          omega
        · rw [List.countP_cons_of_neg _ _ (by rw [harr]; exact hpa)]
          rw [List.countP_cons_of_neg (fun m => (f m).isNone) _ hpa]
          exact ih f n hnodup' h1 hnone

/-- Overwriting an already-inserted node's entry leaves the uninserted count
unchanged. -/
theorem countP_isNone_overwrite (e : HeapEntry) (l : List Nat)
    (f : Nat → Option HeapEntry) (n : Nat) (hsome : (f n).isSome = true) :
    l.countP (fun m => ((if m = n then some e else f m) : Option HeapEntry).isNone) =
      l.countP (fun m => (f m).isNone) := by
  refine List.countP_congr ?_
  intro m hm
  by_cases hmn : m = n
  · subst hmn
    rw [if_pos rfl]
    rcases Option.isSome_iff_exists.mp hsome with ⟨v, hv⟩
    rw [hv]
    simp
  · rw [if_neg hmn]

/-- Inserting a fresh graph node strictly trades one uninserted node for one
active slot. -/
theorem uninsertedCount_insert (facade : Facade) (h : QueryHeap) (n : Nat)
    (k : Int) (p : Nat) (d : Int) (hn : n < facade.numNodes)
    (hnone : h.entries n = none) :
    uninsertedCount facade (h.insert n k p d) + 1 = uninsertedCount facade h := by
  show (List.range facade.numNodes).countP
      (fun m => ((if m = n then some ⟨k, p, d⟩ else h.entries m) :
        Option HeapEntry).isNone) + 1 =
    (List.range facade.numNodes).countP (fun m => (h.entries m).isNone)
  exact countP_isNone_update ⟨k, p, d⟩ (List.range facade.numNodes) h.entries n
    (List.nodup_range facade.numNodes) (List.mem_range.mpr hn) hnone

/-- Overwriting an entry does not change the uninserted count. -/
theorem uninsertedCount_updateEntry (facade : Facade) (h : QueryHeap) (n : Nat)
    (k : Int) (p : Nat) (d : Int) (hsome : (h.entries n).isSome = true) :
    uninsertedCount facade (h.updateEntry n k p d) = uninsertedCount facade h := by
  show (List.range facade.numNodes).countP
      (fun m => ((if m = n then some ⟨k, p, d⟩ else h.entries m) :
        Option HeapEntry).isNone) =
    (List.range facade.numNodes).countP (fun m => (h.entries m).isNone)
  exact countP_isNone_overwrite ⟨k, p, d⟩ (List.range facade.numNodes) h.entries n hsome

/-- Processing one edge either leaves the heap unchanged, inserts a fresh
node, or overwrites an inserted node's entry. -/
theorem processEdge_cases (node : Nat) (w d : Int) (dir : Bool)
    (h : QueryHeap) (e : EdgeData) :
    processEdge node w d dir h e = h ∨
    (h.entries e.target = none ∧
      processEdge node w d dir h e =
        h.insert e.target (w + e.weight) node (d + e.duration)) ∨
    ((h.entries e.target).isSome = true ∧
      processEdge node w d dir h e =
        h.updateEntry e.target (w + e.weight) node (d + e.duration)) := by
  unfold processEdge
  by_cases hflag : (if dir then e.forward else e.backward) = true
  · rw [if_pos hflag]
    by_cases hins : h.wasInserted e.target = true
    · rw [if_neg (not_not_intro hins)]
      by_cases hlex : lexLt (w + e.weight) (d + e.duration)
          (h.getKey e.target) (h.getDuration e.target)
      · rw [if_pos hlex]
        exact Or.inr (Or.inr ⟨hins, rfl⟩)
      · rw [if_neg hlex]
        exact Or.inl rfl
    · rw [if_pos hins]
      refine Or.inr (Or.inl ⟨?_, rfl⟩)
      unfold QueryHeap.wasInserted at hins
      exact Option.not_isSome_iff_eq_none.mp hins
  · rw [if_neg hflag]
    exact Or.inl rfl

/-- Processing one edge whose target is a graph node never increases the
termination measure, and only ever prepends that target to the active
list. -/
theorem heapMeasure_processEdge_le (facade : Facade) (node : Nat) (w d : Int)
    (dir : Bool) (h : QueryHeap) (e : EdgeData)
    (htgt : e.target < facade.numNodes) :
    heapMeasure facade (processEdge node w d dir h e) ≤ heapMeasure facade h ∧
    ∀ m ∈ (processEdge node w d dir h e).active, m = e.target ∨ m ∈ h.active := by
  rcases processEdge_cases node w d dir h e with hc | ⟨hnone, hc⟩ | ⟨hsome, hc⟩
  · rw [hc]
    exact ⟨Nat.le_refl _, fun m hm => Or.inr hm⟩
  · rw [hc]
    constructor
    · have hu := uninsertedCount_insert facade h e.target (w + e.weight) node
        (d + e.duration) htgt hnone
      show 2 * uninsertedCount facade (h.insert e.target (w + e.weight) node
        (d + e.duration)) + (e.target :: h.active).length ≤
        2 * uninsertedCount facade h + h.active.length
      simp only [List.length_cons]
      omega
    · intro m hm
      rcases List.mem_cons.mp hm with h0 | h1
      · exact Or.inl h0
      · exact Or.inr h1
  · rw [hc]
    constructor
    · have hu := uninsertedCount_updateEntry facade h e.target (w + e.weight) node
        (d + e.duration) hsome
      show 2 * uninsertedCount facade (h.updateEntry e.target (w + e.weight) node
        (d + e.duration)) + h.active.length ≤
        2 * uninsertedCount facade h + h.active.length
      omega
    · intro m hm
      exact Or.inr hm

/-- Folding edge processing over a list of graph edges never increases the
measure, and adds only edge targets to the active list. -/
theorem heapMeasure_foldl_le (facade : Facade) (node : Nat) (w d : Int)
    (dir : Bool) :
    ∀ (edges : List EdgeData) (h : QueryHeap),
      (∀ e ∈ edges, e.target < facade.numNodes) →
      heapMeasure facade (edges.foldl (processEdge node w d dir) h) ≤
        heapMeasure facade h ∧
      ∀ m ∈ (edges.foldl (processEdge node w d dir) h).active,
        (∃ e ∈ edges, m = e.target) ∨ m ∈ h.active := by
  intro edges
  induction edges with
  | nil =>
    intro h _
    exact ⟨Nat.le_refl _, fun m hm => Or.inr hm⟩
  | cons e es ih =>
    intro h htgts
    have he : e.target < facade.numNodes := htgts e (List.mem_cons_self e es)
    have hstep := heapMeasure_processEdge_le facade node w d dir h e he
    have hrest := ih (processEdge node w d dir h e)
      (fun e' he' => htgts e' (List.mem_cons_of_mem e he'))
    constructor
    · exact Nat.le_trans hrest.1 hstep.1
    · intro m hm
      rcases hrest.2 m hm with ⟨e', he', hme⟩ | hm1
      · exact Or.inl ⟨e', List.mem_cons_of_mem e he', hme⟩
      · rcases hstep.2 m hm1 with h0 | h1
        · exact Or.inl ⟨e, List.mem_cons_self e es, h0⟩
        · exact Or.inr h1

/-- Every adjacency edge of a well-formed facade targets a graph node. -/
theorem adjacent_targets_lt (facade : Facade) (hwf : facade.WF) (n : Nat) :
    ∀ e ∈ facade.adjacent n, e.target < facade.numNodes := by
  intro e he
  unfold Facade.adjacent at he
  by_cases hn : n < facade.adjacency.length
  · rw [List.getD_eq_getElem facade.adjacency [] hn] at he
    exact hwf facade.adjacency[n] (List.getElem_mem hn) e he
  · rw [List.getD_eq_default] at he
    · simp at he
    · omega

/-- Edge relaxation never increases the measure and keeps active nodes in the
graph. -/
theorem heapMeasure_relax_le (facade : Facade) (dir : Bool) (node : Nat)
    (w d : Int) (h : QueryHeap) (hwf : facade.WF)
    (hact : ∀ m ∈ h.active, m < facade.numNodes) :
    heapMeasure facade (relaxOutgoingEdges facade dir node w d h) ≤
      heapMeasure facade h ∧
    ∀ m ∈ (relaxOutgoingEdges facade dir node w d h).active,
      m < facade.numNodes := by
  unfold relaxOutgoingEdges
  by_cases hstall : facade.stall dir node w h = true
  · rw [if_pos hstall]
    exact ⟨Nat.le_refl _, hact⟩
  · rw [if_neg hstall]
    have hfold := heapMeasure_foldl_le facade node w d dir (facade.adjacent node) h
      (adjacent_targets_lt facade hwf node)
    refine ⟨hfold.1, ?_⟩
    intro m hm
    rcases hfold.2 m hm with ⟨e, he, hme⟩ | hm1
    · rw [hme]
      exact adjacent_targets_lt facade hwf node e he
    · exact hact m hm1

/-- A forward sweep with fuel exceeding the heap measure runs the heap dry
and returns. -/
theorem forwardSweep_total (facade : Facade) (row_idx number_of_targets : Nat)
    (buckets : List NodeBucket) (hwf : facade.WF) :
    ∀ (fuel : Nat) (h : QueryHeap) (t : Tables),
      (∀ m ∈ h.active, m < facade.numNodes) →
      heapMeasure facade h < fuel →
      ∃ res, forwardSweep facade row_idx number_of_targets buckets fuel h t =
        some res := by
  intro fuel
  induction fuel with
  | zero =>
    intro h t _ hlt
    exact absurd hlt (Nat.not_lt_zero _)
  | succ fuel ih =>
    intro h t hact hlt
    cases hdm : h.deleteMin with
    | none =>
      refine ⟨(t, []), ?_⟩
      rw [forwardSweep]
      unfold forwardRoutingStep
      rw [hdm]
    | some nh =>
      cases nh with
      | mk node h1 =>
        rcases deleteMin_spec h node h1 hdm with ⟨hent, hnmem, hlen, hsub⟩
        have hu : uninsertedCount facade h1 = uninsertedCount facade h := by
          unfold uninsertedCount
          rw [hent]
        have hact1 : ∀ m ∈ h1.active, m < facade.numNodes :=
          fun m hm => hact m (hsub m hm)
        have hrelax := heapMeasure_relax_le facade true node (h1.getKey node)
          (h1.getDuration node) h1 hwf hact1
        have hm1 : heapMeasure facade h1 + 1 = heapMeasure facade h := by
          unfold heapMeasure
          omega
        have hm2 : heapMeasure facade
            (relaxOutgoingEdges facade true node (h1.getKey node)
              (h1.getDuration node) h1) < fuel := by
          omega
        rcases ih (relaxOutgoingEdges facade true node (h1.getKey node)
            (h1.getDuration node) h1)
            ((bucketRange buckets node).foldl
              (processBucket facade node (h1.getKey node) (h1.getDuration node)
                row_idx number_of_targets) t)
            hrelax.2 hm2 with ⟨res, hres⟩
        refine ⟨(res.1, (node, h1.getKey node, h1.getDuration node) :: res.2), ?_⟩
        rw [forwardSweep]
        unfold forwardRoutingStep
        rw [hdm]
        simp only [hres]

/-- A backward sweep with fuel exceeding the heap measure runs the heap dry
and returns. -/
theorem backwardSweep_total (facade : Facade) (column_idx : Nat)
    (hwf : facade.WF) :
    ∀ (fuel : Nat) (h : QueryHeap) (buckets : List NodeBucket),
      (∀ m ∈ h.active, m < facade.numNodes) →
      heapMeasure facade h < fuel →
      ∃ res, backwardSweep facade column_idx fuel h buckets = some res := by
  intro fuel
  induction fuel with
  | zero =>
    intro h buckets _ hlt
    exact absurd hlt (Nat.not_lt_zero _)
  | succ fuel ih =>
    intro h buckets hact hlt
    cases hdm : h.deleteMin with
    | none =>
      refine ⟨buckets, ?_⟩
      rw [backwardSweep]
      unfold backwardRoutingStep
      rw [hdm]
    | some nh =>
      cases nh with
      | mk node h1 =>
        rcases deleteMin_spec h node h1 hdm with ⟨hent, hnmem, hlen, hsub⟩
        have hu : uninsertedCount facade h1 = uninsertedCount facade h := by
          unfold uninsertedCount
          rw [hent]
        have hact1 : ∀ m ∈ h1.active, m < facade.numNodes :=
          fun m hm => hact m (hsub m hm)
        have hrelax := heapMeasure_relax_le facade false node (h1.getKey node)
          (h1.getDuration node) h1 hwf hact1
        have hm1 : heapMeasure facade h1 + 1 = heapMeasure facade h := by
          unfold heapMeasure
          omega
        have hm2 : heapMeasure facade
            (relaxOutgoingEdges facade false node (h1.getKey node)
              (h1.getDuration node) h1) < fuel := by
          omega
        rcases ih (relaxOutgoingEdges facade false node (h1.getKey node)
            (h1.getDuration node) h1)
            (buckets ++ [⟨node, h1.getParent node, column_idx, h1.getKey node,
              h1.getDuration node⟩])
            hrelax.2 hm2 with ⟨res, hres⟩
        refine ⟨res, ?_⟩
        rw [backwardSweep]
        unfold backwardRoutingStep
        rw [hdm]
        simp only [hres]

/-- C9.  Both settle loops terminate on every well-formed finite graph: with
fuel exceeding the heap measure (at most twice the node count plus the
number of initially active nodes) the loop empties the heap and returns
normally — each pop permanently removes one active node and every insertion
consumes one never-inserted node id. -/
theorem c9_sweeps_terminate (facade : Facade) (h : QueryHeap) (t : Tables)
    (buckets bs : List NodeBucket) (row_idx number_of_targets column_idx : Nat)
    (hwf : facade.WF) (hact : ∀ m ∈ h.active, m < facade.numNodes) :
    (∃ res, forwardSweep facade row_idx number_of_targets buckets
      (heapMeasure facade h + 1) h t = some res) ∧
    (∃ res, backwardSweep facade column_idx (heapMeasure facade h + 1) h bs =
      some res) := by
  constructor
  · exact forwardSweep_total facade row_idx number_of_targets buckets hwf
      (heapMeasure facade h + 1) h t hact (Nat.lt_succ_self _)
  · exact backwardSweep_total facade column_idx hwf (heapMeasure facade h + 1) h
      bs hact (Nat.lt_succ_self _)

/-- Witness for `c9_sweeps_terminate`: the two-node facade with a seeded
one-node heap. -/
theorem c9_sweeps_terminate_witness :
    (∃ res, forwardSweep exFacadeTwo 0 1 []
      (heapMeasure exFacadeTwo (insertSourceInHeap emptyHeap ⟨[(0, 0, 0)]⟩) + 1)
      (insertSourceInHeap emptyHeap ⟨[(0, 0, 0)]⟩) (mkTables 1) = some res) ∧
    (∃ res, backwardSweep exFacadeTwo 0
      (heapMeasure exFacadeTwo (insertSourceInHeap emptyHeap ⟨[(0, 0, 0)]⟩) + 1)
      (insertSourceInHeap emptyHeap ⟨[(0, 0, 0)]⟩) [] = some res) :=
  c9_sweeps_terminate exFacadeTwo (insertSourceInHeap emptyHeap ⟨[(0, 0, 0)]⟩)
    (mkTables 1) [] [] 0 1 0 (by decide)
    (by
      intro m hm
      simp only [insertSourceInHeap, emptyHeap, List.foldl] at hm
      simp only [QueryHeap.insert] at hm
      rcases List.mem_cons.mp hm with h0 | h1
      · rw [h0]; decide
      · simp at h1)

/-- Seeding folds: the active list grows by exactly one slot per anchor, and
every new active node is an anchor node. -/
theorem seed_active :
    ∀ (anchors : List (Nat × Int × Int)) (h : QueryHeap),
      ((anchors.foldl (fun h a => h.insert a.1 a.2.1 a.1 a.2.2) h).active.length =
        anchors.length + h.active.length) ∧
      (∀ m ∈ (anchors.foldl (fun h a => h.insert a.1 a.2.1 a.1 a.2.2) h).active,
        (∃ a ∈ anchors, m = a.1) ∨ m ∈ h.active) := by
  intro anchors
  induction anchors with
  | nil => intro h; exact ⟨by simp, fun m hm => Or.inr hm⟩
  | cons a as ih =>
    intro h
    have hstep := ih (h.insert a.1 a.2.1 a.1 a.2.2)
    constructor
    · rw [List.foldl_cons, hstep.1]
      show as.length + (a.1 :: h.active).length = (a :: as).length + h.active.length
      simp only [List.length_cons]
      omega
    · intro m hm
      rcases hstep.2 m hm with ⟨a', ha', hma⟩ | hm1
      · exact Or.inl ⟨a', List.mem_cons_of_mem a ha', hma⟩
      · rcases List.mem_cons.mp hm1 with h0 | h1
        · exact Or.inl ⟨a, List.mem_cons_self a as, h0⟩
        · exact Or.inr h1

/-- The heap measure is bounded by twice the node count plus the active
count. -/
theorem heapMeasure_bound (facade : Facade) (h : QueryHeap) :
    heapMeasure facade h ≤ 2 * facade.numNodes + h.active.length := by
  unfold heapMeasure uninsertedCount
  have := List.countP_le_length (fun n => (h.entries n).isNone)
    (l := List.range facade.numNodes)
  rw [List.length_range] at this
  omega

/-- Every phantom's anchor count is bounded by `maxAnchorCount`. -/
theorem anchors_le_maxAnchorCount :
    ∀ (phantoms : List PhantomNode) (p : PhantomNode), p ∈ phantoms →
      p.anchors.length ≤ maxAnchorCount phantoms := by
  intro phantoms
  induction phantoms with
  | nil => intro p hp; simp at hp
  | cons q qs ih =>
    intro p hp
    rcases List.mem_cons.mp hp with h0 | h1
    · subst h0
      show p.anchors.length ≤ max p.anchors.length (maxAnchorCount qs)
      exact Nat.le_max_left _ _
    · have := ih p h1
      show p.anchors.length ≤ max q.anchors.length (maxAnchorCount qs)
      exact Nat.le_trans this (Nat.le_max_right _ _)

/-- `getPhantom` yields a member of the list or the empty phantom. -/
theorem getPhantom_cases (phantoms : List PhantomNode) (i : Nat) :
    getPhantom phantoms i ∈ phantoms ∨ getPhantom phantoms i = ⟨[]⟩ := by
  unfold getPhantom
  by_cases hi : i < phantoms.length
  · rw [List.getD_eq_getElem phantoms ⟨[]⟩ hi]
    exact Or.inl (List.getElem_mem hi)
  · rw [List.getD_eq_default]
    · exact Or.inr rfl
    · omega

/-- A seeded target heap satisfies the bounds needed for termination. -/
theorem seeded_heap_bounds (facade : Facade) (phantoms : List PhantomNode)
    (i : Nat) (hph : ∀ p ∈ phantoms, ∀ a ∈ p.anchors, a.1 < facade.numNodes) :
    heapMeasure facade (insertTargetInHeap emptyHeap (getPhantom phantoms i)) ≤
      2 * facade.numNodes + maxAnchorCount phantoms ∧
    ∀ m ∈ (insertTargetInHeap emptyHeap (getPhantom phantoms i)).active,
      m < facade.numNodes := by
  have hseed := seed_active (getPhantom phantoms i).anchors emptyHeap
  have hanchor : ∀ a ∈ (getPhantom phantoms i).anchors, a.1 < facade.numNodes := by
    rcases getPhantom_cases phantoms i with hmem | hempty
    · exact hph _ hmem
    · rw [hempty]; intro a ha; simp at ha
  have hlen : (getPhantom phantoms i).anchors.length ≤ maxAnchorCount phantoms := by
    rcases getPhantom_cases phantoms i with hmem | hempty
    · exact anchors_le_maxAnchorCount phantoms _ hmem
    · rw [hempty]; exact Nat.zero_le _
  constructor
  · have hb := heapMeasure_bound facade
      (insertTargetInHeap emptyHeap (getPhantom phantoms i))
    have hl : (insertTargetInHeap emptyHeap (getPhantom phantoms i)).active.length =
        (getPhantom phantoms i).anchors.length := by
      show ((getPhantom phantoms i).anchors.foldl
        (fun h a => h.insert a.1 a.2.1 a.1 a.2.2) emptyHeap).active.length = _
      rw [hseed.1]
      rfl
    omega
  · intro m hm
    rcases hseed.2 m hm with ⟨a, ha, hma⟩ | hm1
    · rw [hma]; exact hanchor a ha
    · simp [emptyHeap] at hm1

/-- The backward phase succeeds on every column list given enough fuel. -/
theorem backwardCols_total (facade : Facade) (phantoms : List PhantomNode)
    (fuel : Nat) (hwf : facade.WF)
    (hph : ∀ p ∈ phantoms, ∀ a ∈ p.anchors, a.1 < facade.numNodes)
    (hfuel : 2 * facade.numNodes + maxAnchorCount phantoms < fuel) :
    ∀ (cols : List (Nat × Nat)) (buckets : List NodeBucket),
      ∃ bs, backwardCols facade phantoms fuel cols buckets = some bs := by
  intro cols
  induction cols with
  | nil => intro buckets; exact ⟨buckets, rfl⟩
  | cons ci rest ih =>
    intro buckets
    cases ci with
    | mk column_idx index =>
      have hb := seeded_heap_bounds facade phantoms index hph
      rcases backwardSweep_total facade column_idx hwf fuel
        (insertTargetInHeap emptyHeap (getPhantom phantoms index)) buckets hb.2
        (by omega) with ⟨bs1, hbs1⟩
      rcases ih bs1 with ⟨bs, hbs⟩
      refine ⟨bs, ?_⟩
      rw [backwardCols, hbs1]
      exact hbs

/-- The forward phase succeeds on every row list given enough fuel. -/
theorem forwardRows_total (facade : Facade) (phantoms : List PhantomNode)
    (number_of_targets : Nat) (buckets : List NodeBucket) (fuel : Nat)
    (hwf : facade.WF)
    (hph : ∀ p ∈ phantoms, ∀ a ∈ p.anchors, a.1 < facade.numNodes)
    (hfuel : 2 * facade.numNodes + maxAnchorCount phantoms < fuel) :
    ∀ (rows : List (Nat × Nat)) (t : Tables),
      ∃ res, forwardRows facade phantoms number_of_targets buckets fuel rows t =
        some res := by
  intro rows
  induction rows with
  | nil => intro t; exact ⟨(t, []), rfl⟩
  | cons ri rest ih =>
    intro t
    cases ri with
    | mk row_idx index =>
      have hb := seeded_heap_bounds facade phantoms index hph
      rcases forwardSweep_total facade row_idx number_of_targets buckets hwf fuel
        (insertSourceInHeap emptyHeap (getPhantom phantoms index)) t hb.2
        (by
          have := hb.1
          show heapMeasure facade
            (insertTargetInHeap emptyHeap (getPhantom phantoms index)) < fuel
          omega) with ⟨res1, hres1⟩
      cases res1 with
      | mk t1 tr =>
        rcases ih t1 with ⟨res2, hres2⟩
        cases res2 with
        | mk t2 trs =>
          refine ⟨(t2, tr :: trs), ?_⟩
          rw [forwardRows]
          simp only [hres1, hres2]

/-- Matrix updates preserve the length of the durations vector. -/
theorem processBucket_durations_length (facade : Facade) (node : Nat)
    (sw sd : Int) (r T : Nat) (t : Tables) (b : NodeBucket) :
    (processBucket facade node sw sd r T t b).durations.length =
      t.durations.length := by
  unfold processBucket
  by_cases hneg : sw + b.weight < 0
  · rw [if_pos hneg]
    cases addLoopWeight facade node (sw + b.weight) (sd + b.duration) with
    | some wd =>
      cases wd with
      | mk w d => exact List.length_set t.durations _ _
    | none => rfl
  · rw [if_neg hneg]
    by_cases hlex : lexLt (sw + b.weight) (sd + b.duration)
        (t.weights.getD (r * T + b.column_index) 0)
        (t.durations.getD (r * T + b.column_index) 0)
    · rw [if_pos hlex]
      exact List.length_set t.durations _ _
    · rw [if_neg hlex]

/-- The bucket fold of one settle step preserves the durations length. -/
theorem foldl_processBucket_durations_length (facade : Facade) (node : Nat)
    (sw sd : Int) (r T : Nat) :
    ∀ (bl : List NodeBucket) (t : Tables),
      ((bl.foldl (processBucket facade node sw sd r T) t).durations.length =
        t.durations.length) := by
  intro bl
  induction bl with
  | nil => intro t; rfl
  | cons b bs ih =>
    intro t
    rw [List.foldl_cons, ih (processBucket facade node sw sd r T t b),
      processBucket_durations_length]

/-- A whole forward sweep preserves the durations length. -/
theorem forwardSweep_durations_length (facade : Facade) (r T : Nat)
    (buckets : List NodeBucket) :
    ∀ (fuel : Nat) (h : QueryHeap) (t : Tables) res,
      forwardSweep facade r T buckets fuel h t = some res →
      res.1.durations.length = t.durations.length := by
  intro fuel
  induction fuel with
  | zero =>
    intro h t res hres
    rw [forwardSweep] at hres
    cases hdm : h.deleteMin with
    | none =>
      simp only [hdm, Option.some.injEq] at hres
      rw [← hres]
    | some nh => simp [hdm] at hres
  | succ fuel ih =>
    intro h t res hres
    rw [forwardSweep] at hres
    cases hstep : forwardRoutingStep facade r T buckets h t with
    | none =>
      simp only [hstep, Option.some.injEq] at hres
      rw [← hres]
    | some v =>
      cases v with
      | mk h2 v2 =>
        cases v2 with
        | mk t1 s =>
          cases hrec : forwardSweep facade r T buckets fuel h2 t1 with
          | none => simp [hstep, hrec] at hres
          | some res2 =>
            cases res2 with
            | mk t2 tr =>
              simp only [hstep, hrec, Option.some.injEq] at hres
              have ht1 : t1.durations.length = t.durations.length := by
                unfold forwardRoutingStep at hstep
                cases hdm : h.deleteMin with
                | none => simp [hdm] at hstep
                | some nh =>
                  cases nh with
                  | mk node h1 =>
                    simp only [hdm, Option.some.injEq, Prod.mk.injEq] at hstep
                    rcases hstep with ⟨_, hstep1, _⟩
                    rw [← hstep1]
                    exact foldl_processBucket_durations_length facade node _ _ r T
                      (bucketRange buckets node) t
              have hrec1 := ih h2 t1 (t2, tr) hrec
              rw [← hres]
              simpa using hrec1.trans ht1

/-- The whole forward phase preserves the durations length. -/
theorem forwardRows_durations_length (facade : Facade)
    (phantoms : List PhantomNode) (T : Nat) (buckets : List NodeBucket)
    (fuel : Nat) :
    ∀ (rows : List (Nat × Nat)) (t : Tables) res,
      forwardRows facade phantoms T buckets fuel rows t = some res →
      res.1.durations.length = t.durations.length := by
  intro rows
  induction rows with
  | nil =>
    intro t res hres
    rw [forwardRows] at hres
    simp only [Option.some.injEq] at hres
    rw [← hres]
  | cons ri rest ih =>
    intro t res hres
    cases ri with
    | mk row_idx index =>
      rw [forwardRows] at hres
      cases hsweep : forwardSweep facade row_idx T buckets fuel
          (insertSourceInHeap emptyHeap (getPhantom phantoms index)) t with
      | none => simp [hsweep] at hres
      | some res1 =>
        cases res1 with
        | mk t1 tr =>
          cases hrest : forwardRows facade phantoms T buckets fuel rest t1 with
          | none => simp [hsweep, hrest] at hres
          | some res2 =>
            cases res2 with
            | mk t2 trs =>
              simp only [hsweep, hrest, Option.some.injEq] at hres
              have h1 := forwardSweep_durations_length facade row_idx T buckets fuel
                _ t (t1, tr) hsweep
              have h2 := ih t1 (t2, trs) hrest
              rw [← hres]
              simpa using h2.trans h1

/-- C8.  With an empty source list or an empty target list,
`manyToManySearch` returns normally (given fuel above the termination bound)
and its durations table is the empty vector — `sources × targets = 0`
entries — rather than an error. -/
theorem c8_empty_inputs (facade : Facade) (phantoms : List PhantomNode)
    (source_indices target_indices : List Nat) (fuel : Nat)
    (hwf : facade.WF)
    (hph : ∀ p ∈ phantoms, ∀ a ∈ p.anchors, a.1 < facade.numNodes)
    (hfuel : 2 * facade.numNodes + maxAnchorCount phantoms < fuel)
    (hempty : source_indices = [] ∨ target_indices = []) :
    ∃ t sorted traces,
      manyToManySearch facade phantoms source_indices target_indices fuel =
        some (t, sorted, traces) ∧ t.durations = [] := by
  rcases backwardCols_total facade phantoms fuel hwf hph hfuel
    target_indices.enum [] with ⟨bs, hbs⟩
  rcases forwardRows_total facade phantoms target_indices.length (sortBuckets bs)
    fuel hwf hph hfuel source_indices.enum
    (mkTables (source_indices.length * target_indices.length)) with ⟨res, hres⟩
  obtain ⟨t, traces⟩ := res
  have hzero : source_indices.length * target_indices.length = 0 := by
    rcases hempty with h0 | h0
    · simp [h0]
    · simp [h0]
  have hlen := forwardRows_durations_length facade phantoms target_indices.length
    (sortBuckets bs) fuel source_indices.enum
    (mkTables (source_indices.length * target_indices.length)) (t, traces) hres
  have hinit : (mkTables (source_indices.length * target_indices.length)).durations.length = 0 := by
    unfold mkTables
    simp [hzero]
  refine ⟨t, sortBuckets bs, traces, ?_, ?_⟩
  · unfold manyToManySearch
    simp only [hbs, hres]
  · exact List.eq_nil_of_length_eq_zero (hlen.trans hinit)

/-- Witness for `c8_empty_inputs`: the two-node facade with an empty source
list. -/
theorem c8_empty_inputs_witness :
    ∃ t sorted traces,
      manyToManySearch exFacadeTwo exPhantoms [] [0] 10 =
        some (t, sorted, traces) ∧ t.durations = [] :=
  c8_empty_inputs exFacadeTwo exPhantoms [] [0] 10 (by decide)
    (by decide) (by decide) (Or.inl rfl)

/-- Matrix cells other than the one addressed by a bucket entry are never
touched by `processBucket`. -/
theorem processBucket_cell_ne (facade : Facade) (node : Nat) (sw sd : Int)
    (r T : Nat) (t : Tables) (b : NodeBucket) (j : Nat)
    (hj : j ≠ r * T + b.column_index) :
    (processBucket facade node sw sd r T t b).weights.getD j 0 =
      t.weights.getD j 0 ∧
    (processBucket facade node sw sd r T t b).durations.getD j 0 =
      t.durations.getD j 0 ∧
    (processBucket facade node sw sd r T t b).middles.getD j 0 =
      t.middles.getD j 0 := by
  have hset : ∀ (l : List Int) (v : Int),
      (l.set (r * T + b.column_index) v).getD j 0 = l.getD j 0 := by
    intro l v
    simp [List.getD_eq_getElem?_getD, List.getElem?_set_ne (Ne.symm hj)]
  have hsetN : ∀ (l : List Nat) (v : Nat),
      (l.set (r * T + b.column_index) v).getD j 0 = l.getD j 0 := by
    intro l v
    simp [List.getD_eq_getElem?_getD, List.getElem?_set_ne (Ne.symm hj)]
  unfold processBucket
  by_cases hneg : sw + b.weight < 0
  · rw [if_pos hneg]
    cases addLoopWeight facade node (sw + b.weight) (sd + b.duration) with
    | some wd =>
      cases wd with
      | mk w d => exact ⟨hset _ _, hset _ _, hsetN _ _⟩
    | none => exact ⟨rfl, rfl, rfl⟩
  · rw [if_neg hneg]
    by_cases hlex : lexLt (sw + b.weight) (sd + b.duration)
        (t.weights.getD (r * T + b.column_index) 0)
        (t.durations.getD (r * T + b.column_index) 0)
    · rw [if_pos hlex]
      exact ⟨hset _ _, hset _ _, hsetN _ _⟩
    · rw [if_neg hlex]
      exact ⟨rfl, rfl, rfl⟩

/-- A candidate discarded by the negative-weight rule changes no matrix
cell. -/
theorem processBucket_rejected (facade : Facade) (node : Nat) (sw sd : Int)
    (r T : Nat) (t : Tables) (b : NodeBucket)
    (hrej : Rejected facade node sw sd b) :
    processBucket facade node sw sd r T t b = t := by
  unfold processBucket
  rw [if_pos hrej.1, hrej.2]

/-- If every bucket entry of the fold addressing column `c` is rejected, the
cell `(r, c)` survives the fold untouched. -/
theorem foldl_processBucket_preserve (facade : Facade) (node : Nat)
    (sw sd : Int) (r T c : Nat) :
    ∀ (bl : List NodeBucket) (t : Tables),
      (∀ b ∈ bl, b.column_index = c → Rejected facade node sw sd b) →
      (bl.foldl (processBucket facade node sw sd r T) t).weights.getD
          (r * T + c) 0 = t.weights.getD (r * T + c) 0 ∧
      (bl.foldl (processBucket facade node sw sd r T) t).durations.getD
          (r * T + c) 0 = t.durations.getD (r * T + c) 0 ∧
      (bl.foldl (processBucket facade node sw sd r T) t).middles.getD
          (r * T + c) 0 = t.middles.getD (r * T + c) 0 := by
  intro bl
  induction bl with
  | nil => intro t _; exact ⟨rfl, rfl, rfl⟩
  | cons b bs ih =>
    intro t hrej
    rw [List.foldl_cons]
    by_cases hbc : b.column_index = c
    · rw [processBucket_rejected facade node sw sd r T t b
        (hrej b (List.mem_cons_self b bs) hbc)]
      exact ih t (fun b' hb' => hrej b' (List.mem_cons_of_mem b hb'))
    · have hrec := ih (processBucket facade node sw sd r T t b)
        (fun b' hb' => hrej b' (List.mem_cons_of_mem b hb'))
      have hcell := processBucket_cell_ne facade node sw sd r T t b (r * T + c)
        (by omega)
      exact ⟨hrec.1.trans hcell.1, hrec.2.1.trans hcell.2.1,
        hrec.2.2.trans hcell.2.2⟩

/-- A fold for a different row never touches the cell `(r, c)` as long as
every bucket column is a real column. -/
theorem foldl_processBucket_other_row (facade : Facade) (node : Nat)
    (sw sd : Int) (r' T c r : Nat) (hne : r' ≠ r) (hc : c < T) :
    ∀ (bl : List NodeBucket) (t : Tables),
      (∀ b ∈ bl, b.column_index < T) →
      (bl.foldl (processBucket facade node sw sd r' T) t).weights.getD
          (r * T + c) 0 = t.weights.getD (r * T + c) 0 ∧
      (bl.foldl (processBucket facade node sw sd r' T) t).durations.getD
          (r * T + c) 0 = t.durations.getD (r * T + c) 0 ∧
      (bl.foldl (processBucket facade node sw sd r' T) t).middles.getD
          (r * T + c) 0 = t.middles.getD (r * T + c) 0 := by
  intro bl
  induction bl with
  | nil => intro t _; exact ⟨rfl, rfl, rfl⟩
  | cons b bs ih =>
    intro t hcols
    rw [List.foldl_cons]
    have hrec := ih (processBucket facade node sw sd r' T t b)
      (fun b' hb' => hcols b' (List.mem_cons_of_mem b hb'))
    have hbT : b.column_index < T := hcols b (List.mem_cons_self b bs)
    have hj : r * T + c ≠ r' * T + b.column_index := by
      rcases Nat.lt_or_ge r' r with h1 | h1
      · have hrr : r' + 1 ≤ r := h1
        have h2 : (r' + 1) * T ≤ r * T := Nat.mul_le_mul_right T hrr
        have h3 : (r' + 1) * T = r' * T + T := Nat.succ_mul r' T
        omega
      · have hrr : r + 1 ≤ r' := by omega
        have h2 : (r + 1) * T ≤ r' * T := Nat.mul_le_mul_right T hrr
        have h3 : (r + 1) * T = r * T + T := Nat.succ_mul r T
        omega
    have hcell := processBucket_cell_ne facade node sw sd r' T t b (r * T + c) hj
    exact ⟨hrec.1.trans hcell.1, hrec.2.1.trans hcell.2.1,
      hrec.2.2.trans hcell.2.2⟩

/-- Over a whole forward sweep of row `r`: if every settled candidate for
column `c` is rejected, the cell `(r, c)` is unchanged. -/
theorem forwardSweep_preserve (facade : Facade) (r T : Nat)
    (buckets : List NodeBucket) (c : Nat) :
    ∀ (fuel : Nat) (h : QueryHeap) (t t2 : Tables)
      (tr : List (Nat × Int × Int)),
      forwardSweep facade r T buckets fuel h t = some (t2, tr) →
      (∀ s ∈ tr, ∀ b ∈ bucketRange buckets s.1, b.column_index = c →
        Rejected facade s.1 s.2.1 s.2.2 b) →
      t2.weights.getD (r * T + c) 0 = t.weights.getD (r * T + c) 0 ∧
      t2.durations.getD (r * T + c) 0 = t.durations.getD (r * T + c) 0 ∧
      t2.middles.getD (r * T + c) 0 = t.middles.getD (r * T + c) 0 := by
  intro fuel
  induction fuel with
  | zero =>
    intro h t t2 tr hres hrej
    rw [forwardSweep] at hres
    cases hdm : h.deleteMin with
    | none =>
      simp only [hdm, Option.some.injEq, Prod.mk.injEq] at hres
      rw [← hres.1]
      exact ⟨rfl, rfl, rfl⟩
    | some nh => simp [hdm] at hres
  | succ fuel ih =>
    intro h t t2 tr hres hrej
    rw [forwardSweep] at hres
    cases hstep : forwardRoutingStep facade r T buckets h t with
    | none =>
      simp only [hstep, Option.some.injEq, Prod.mk.injEq] at hres
      rw [← hres.1]
      exact ⟨rfl, rfl, rfl⟩
    | some v =>
      cases v with
      | mk h2 v2 =>
        cases v2 with
        | mk t1 s =>
          cases hrec : forwardSweep facade r T buckets fuel h2 t1 with
          | none => simp [hstep, hrec] at hres
          | some res2 =>
            cases res2 with
            | mk t2' tr' =>
              simp only [hstep, hrec, Option.some.injEq, Prod.mk.injEq] at hres
              rcases hres with ⟨ht2, htr⟩
              subst ht2
              subst htr
              have hstep' := hstep
              unfold forwardRoutingStep at hstep'
              cases hdm : h.deleteMin with
              | none => simp [hdm] at hstep'
              | some nh =>
                cases nh with
                | mk node h1 =>
                  simp only [hdm, Option.some.injEq, Prod.mk.injEq] at hstep'
                  rcases hstep' with ⟨hh2, ht1, hs⟩
                  have hhead := hrej s (List.mem_cons_self s tr')
                  have hfold := foldl_processBucket_preserve facade node
                    (h1.getKey node) (h1.getDuration node) r T c
                    (bucketRange buckets node) t
                    (by
                      intro b hb hbc
                      have hs1 : s.1 = node := by rw [← hs]
                      have hs2 : s.2.1 = h1.getKey node := by rw [← hs]
                      have hs3 : s.2.2 = h1.getDuration node := by rw [← hs]
                      rw [hs1] at hhead
                      have := hhead b hb hbc
                      rw [hs2, hs3] at this
                      exact this)
                  have hrest := ih h2 t1 t2' tr' hrec
                    (fun s' hs' => hrej s' (List.mem_cons_of_mem s hs'))
                  rw [← ht1] at hrest
                  exact ⟨hrest.1.trans hfold.1, hrest.2.1.trans hfold.2.1,
                    hrest.2.2.trans hfold.2.2⟩

/-- A forward sweep of a different row never touches cell `(r, c)`. -/
theorem forwardSweep_other_row (facade : Facade) (r' T : Nat)
    (buckets : List NodeBucket) (r c : Nat) (hne : r' ≠ r) (hc : c < T)
    (hcols : ∀ b ∈ buckets, b.column_index < T) :
    ∀ (fuel : Nat) (h : QueryHeap) (t : Tables)
      (res : Tables × List (Nat × Int × Int)),
      forwardSweep facade r' T buckets fuel h t = some res →
      res.1.weights.getD (r * T + c) 0 = t.weights.getD (r * T + c) 0 ∧
      res.1.durations.getD (r * T + c) 0 = t.durations.getD (r * T + c) 0 ∧
      res.1.middles.getD (r * T + c) 0 = t.middles.getD (r * T + c) 0 := by
  intro fuel
  induction fuel with
  | zero =>
    intro h t res hres
    rw [forwardSweep] at hres
    cases hdm : h.deleteMin with
    | none =>
      simp only [hdm, Option.some.injEq] at hres
      rw [← hres]
      exact ⟨rfl, rfl, rfl⟩
    | some nh => simp [hdm] at hres
  | succ fuel ih =>
    intro h t res hres
    rw [forwardSweep] at hres
    cases hstep : forwardRoutingStep facade r' T buckets h t with
    | none =>
      simp only [hstep, Option.some.injEq] at hres
      rw [← hres]
      exact ⟨rfl, rfl, rfl⟩
    | some v =>
      cases v with
      | mk h2 v2 =>
        cases v2 with
        | mk t1 s =>
          cases hrec : forwardSweep facade r' T buckets fuel h2 t1 with
          | none => simp [hstep, hrec] at hres
          | some res2 =>
            cases res2 with
            | mk t2' tr' =>
              simp only [hstep, hrec, Option.some.injEq] at hres
              rw [← hres]
              have hstep' := hstep
              unfold forwardRoutingStep at hstep'
              cases hdm : h.deleteMin with
              | none => simp [hdm] at hstep'
              | some nh =>
                cases nh with
                | mk node h1 =>
                  simp only [hdm, Option.some.injEq, Prod.mk.injEq] at hstep'
                  rcases hstep' with ⟨hh2, ht1, hs⟩
                  have hrangecols : ∀ b ∈ bucketRange buckets node,
                      b.column_index < T := by
                    intro b hb
                    refine hcols b ?_
                    unfold bucketRange at hb
                    exact (List.dropWhile_sublist _).subset
                      ((List.takeWhile_sublist _).subset hb)
                  have hfold := foldl_processBucket_other_row facade node
                    (h1.getKey node) (h1.getDuration node) r' T c r hne hc
                    (bucketRange buckets node) t hrangecols
                  have hrest := ih h2 t1 (t2', tr') hrec
                  rw [← ht1] at hrest
                  exact ⟨hrest.1.trans hfold.1, hrest.2.1.trans hfold.2.1,
                    hrest.2.2.trans hfold.2.2⟩

/-- Every bucket entry emitted by a backward sweep carries the sweep's
column index (or was already in the list). -/
theorem backwardSweep_cols (facade : Facade) (col : Nat) :
    ∀ (fuel : Nat) (h : QueryHeap) (buckets res : List NodeBucket),
      backwardSweep facade col fuel h buckets = some res →
      ∀ b ∈ res, b ∈ buckets ∨ b.column_index = col := by
  intro fuel
  induction fuel with
  | zero =>
    intro h buckets res hres
    rw [backwardSweep] at hres
    cases hdm : h.deleteMin with
    | none =>
      simp only [hdm, Option.some.injEq] at hres
      rw [← hres]
      exact fun b hb => Or.inl hb
    | some nh => simp [hdm] at hres
  | succ fuel ih =>
    intro h buckets res hres
    rw [backwardSweep] at hres
    cases hstep : backwardRoutingStep facade col h buckets with
    | none =>
      simp only [hstep, Option.some.injEq] at hres
      rw [← hres]
      exact fun b hb => Or.inl hb
    | some v =>
      cases v with
      | mk h1 buckets1 =>
        simp only [hstep] at hres
        have hstep' := hstep
        unfold backwardRoutingStep at hstep'
        cases hdm : h.deleteMin with
        | none => simp [hdm] at hstep'
        | some nh =>
          cases nh with
          | mk node hh =>
            simp only [hdm, Option.some.injEq, Prod.mk.injEq] at hstep'
            rcases hstep' with ⟨hh1, hb1⟩
            intro b hb
            rcases ih h1 buckets1 res hres b hb with hmem | hcol
            · rw [← hb1] at hmem
              rcases List.mem_append.mp hmem with h0 | h1'
              · exact Or.inl h0
              · simp only [List.mem_singleton] at h1'
                rw [h1']
                exact Or.inr rfl
            · exact Or.inr hcol

/-- Every bucket entry of the backward phase carries one of the processed
column indices (or was already in the list). -/
theorem backwardCols_cols (facade : Facade) (phantoms : List PhantomNode)
    (fuel : Nat) :
    ∀ (cols : List (Nat × Nat)) (buckets res : List NodeBucket),
      backwardCols facade phantoms fuel cols buckets = some res →
      ∀ b ∈ res, b ∈ buckets ∨ ∃ ci ∈ cols, b.column_index = ci.1 := by
  intro cols
  induction cols with
  | nil =>
    intro buckets res hres b hb
    rw [backwardCols] at hres
    simp only [Option.some.injEq] at hres
    rw [← hres] at hb
    exact Or.inl hb
  | cons ci rest ih =>
    intro buckets res hres b hb
    cases ci with
    | mk column_idx index =>
      rw [backwardCols] at hres
      cases hsweep : backwardSweep facade column_idx fuel
          (insertTargetInHeap emptyHeap (getPhantom phantoms index)) buckets with
      | none => simp [hsweep] at hres
      | some buckets1 =>
        simp only [hsweep] at hres
        rcases ih buckets1 res hres b hb with hmem | ⟨ci', hci', hcol⟩
        · rcases backwardSweep_cols facade column_idx fuel _ buckets buckets1
              hsweep b hmem with h0 | h1
          · exact Or.inl h0
          · exact Or.inr ⟨(column_idx, index),
              List.mem_cons_self _ rest, h1⟩
        · exact Or.inr ⟨ci', List.mem_cons_of_mem _ hci', hcol⟩

/-- Cell preservation across the whole forward phase: the cell `(r, c)` is
unchanged provided row `r`'s settled candidates for column `c` are all
rejected, the traces being matched positionally with the row list. -/
theorem forwardRows_preserve (facade : Facade) (phantoms : List PhantomNode)
    (T : Nat) (buckets : List NodeBucket) (fuel r c : Nat) (hc : c < T)
    (hcols : ∀ b ∈ buckets, b.column_index < T) :
    ∀ (rows : List (Nat × Nat)) (t t2 : Tables)
      (traces : List (List (Nat × Int × Int))),
      forwardRows facade phantoms T buckets fuel rows t = some (t2, traces) →
      (∀ k, (rows.getD k (r + 1, 0)).1 = r →
        ∀ s ∈ traces.getD k [], ∀ b ∈ bucketRange buckets s.1,
          b.column_index = c → Rejected facade s.1 s.2.1 s.2.2 b) →
      t2.weights.getD (r * T + c) 0 = t.weights.getD (r * T + c) 0 ∧
      t2.durations.getD (r * T + c) 0 = t.durations.getD (r * T + c) 0 ∧
      t2.middles.getD (r * T + c) 0 = t.middles.getD (r * T + c) 0 := by
  intro rows
  induction rows with
  | nil =>
    intro t t2 traces hres _
    rw [forwardRows] at hres
    simp only [Option.some.injEq, Prod.mk.injEq] at hres
    rw [← hres.1]
    exact ⟨rfl, rfl, rfl⟩
  | cons ri rest ih =>
    intro t t2 traces hres hrej
    cases ri with
    | mk row_idx index =>
      rw [forwardRows] at hres
      cases hsweep : forwardSweep facade row_idx T buckets fuel
          (insertSourceInHeap emptyHeap (getPhantom phantoms index)) t with
      | none => simp [hsweep] at hres
      | some res1 =>
        cases res1 with
        | mk t1 tr =>
          cases hrest : forwardRows facade phantoms T buckets fuel rest t1 with
          | none => simp [hsweep, hrest] at hres
          | some res2 =>
            cases res2 with
            | mk t2' trs =>
              simp only [hsweep, hrest, Option.some.injEq, Prod.mk.injEq] at hres
              rcases hres with ⟨ht2, htr⟩
              subst ht2
              subst htr
              have htail := ih t1 t2' trs hrest
                (by
                  intro k hk s hs b hb hbc
                  have := hrej (k + 1) (by simpa using hk) s
                    (by simpa using hs) b hb hbc
                  exact this)
              have hhead :
                  t1.weights.getD (r * T + c) 0 = t.weights.getD (r * T + c) 0 ∧
                  t1.durations.getD (r * T + c) 0 =
                    t.durations.getD (r * T + c) 0 ∧
                  t1.middles.getD (r * T + c) 0 = t.middles.getD (r * T + c) 0 := by
                by_cases hrow : row_idx = r
                · subst hrow
                  exact forwardSweep_preserve facade row_idx T buckets c fuel _ t
                    t1 tr hsweep
                    (by
                      intro s hs b hb hbc
                      exact hrej 0 (by simp) s (by simpa using hs) b hb hbc)
                · exact forwardSweep_other_row facade row_idx T buckets r c hrow
                    hc hcols fuel _ t (t1, tr) hsweep
              exact ⟨htail.1.trans hhead.1, htail.2.1.trans hhead.2.1,
                htail.2.2.trans hhead.2.2⟩

/-- C7.  For a pair `(r, c)` whose row-`r` forward sweep produced no accepted
candidate for column `c` — no settled node had a bucket entry for column `c`,
or every such candidate was discarded by the negative-weight rule — the
matrix cell keeps all three "unreachable" sentinels after `manyToManySearch`
completes. -/
theorem c7_unreachable_pair_keeps_sentinels (facade : Facade)
    (phantoms : List PhantomNode) (source_indices target_indices : List Nat)
    (fuel r c : Nat) (t : Tables) (sorted : List NodeBucket)
    (traces : List (List (Nat × Int × Int)))
    (hrun : manyToManySearch facade phantoms source_indices target_indices fuel =
      some (t, sorted, traces))
    (hr : r < source_indices.length) (hc : c < target_indices.length)
    (hrej : ∀ s ∈ traces.getD r [], ∀ b ∈ bucketRange sorted s.1,
      b.column_index = c → Rejected facade s.1 s.2.1 s.2.2 b) :
    t.weights.getD (r * target_indices.length + c) 0 = INVALID_EDGE_WEIGHT ∧
    t.durations.getD (r * target_indices.length + c) 0 = MAXIMAL_EDGE_DURATION ∧
    t.middles.getD (r * target_indices.length + c) 0 = SPECIAL_NODEID := by
  unfold manyToManySearch at hrun
  cases hbs : backwardCols facade phantoms fuel target_indices.enum [] with
  | none => simp [hbs] at hrun
  | some bs =>
    cases hrows : forwardRows facade phantoms target_indices.length
        (sortBuckets bs) fuel source_indices.enum
        (mkTables (source_indices.length * target_indices.length)) with
    | none => simp [hbs, hrows] at hrun
    | some res =>
      cases res with
      | mk t' traces' =>
        simp only [hbs, hrows, Option.some.injEq, Prod.mk.injEq] at hrun
        rcases hrun with ⟨ht, hsorted, htraces⟩
        rw [← htraces] at hrej
        rw [← ht]
        have hbscols : ∀ b ∈ sortBuckets bs, b.column_index <
            target_indices.length := by
          intro b hb
          have hbmem : b ∈ bs :=
            ((List.perm_insertionSort bucketLe bs).mem_iff).mp hb
          rcases backwardCols_cols facade phantoms fuel target_indices.enum []
              bs hbs b hbmem with h0 | ⟨ci, hci, hcol⟩
          · simp at h0
          · rw [hcol]
            rw [List.mem_enum_iff_getElem?] at hci
            exact (List.getElem?_eq_some_iff.mp hci).1
        have hrowsr : ∀ k, ((source_indices.enum).getD k (r + 1, 0)).1 = r →
            ∀ s ∈ traces'.getD k [], ∀ b ∈ bucketRange (sortBuckets bs) s.1,
              b.column_index = c → Rejected facade s.1 s.2.1 s.2.2 b := by
          intro k hk s hs b hb hbc
          have hkr : k = r := by
            by_cases hkl : k < source_indices.enum.length
            · rw [List.getD_eq_getElem _ _ hkl, List.getElem_enum] at hk
              exact hk
            · rw [List.getD_eq_default _ _ (by omega)] at hk
              simp at hk
          subst hkr
          rw [hsorted] at hb
          exact hrej s hs b hb hbc
        have hpres := forwardRows_preserve facade phantoms target_indices.length
          (sortBuckets bs) fuel r c hc hbscols source_indices.enum
          (mkTables (source_indices.length * target_indices.length)) t' traces'
          hrows hrowsr
        have hidx : r * target_indices.length + c <
            source_indices.length * target_indices.length := by
          have h2 : (r + 1) * target_indices.length ≤
              source_indices.length * target_indices.length :=
            Nat.mul_le_mul_right _ hr
          have h3 : (r + 1) * target_indices.length =
              r * target_indices.length + target_indices.length :=
            Nat.succ_mul r _
          omega
        have hrepl : ∀ (v : Int),
            (List.replicate (source_indices.length * target_indices.length) v).getD
              (r * target_indices.length + c) 0 = v := by
          intro v
          rw [List.getD_eq_getElem?_getD, List.getElem?_replicate, if_pos hidx]
          rfl
        have hreplN : ∀ (v : Nat),
            (List.replicate (source_indices.length * target_indices.length) v).getD
              (r * target_indices.length + c) 0 = v := by
          intro v
          rw [List.getD_eq_getElem?_getD, List.getElem?_replicate, if_pos hidx]
          rfl
        refine ⟨hpres.1.trans (hrepl _), hpres.2.1.trans (hrepl _),
          hpres.2.2.trans (hreplN _)⟩

/-- Witness for `c7_unreachable_pair_keeps_sentinels`: on the edgeless
two-node facade, source at node `0` and target at node `1` never meet; the
single cell keeps its three sentinels. -/
theorem c7_unreachable_pair_keeps_sentinels_witness :
    ∃ t sorted traces,
      manyToManySearch exFacadeTwo exPhantoms [0] [1] 10 =
        some (t, sorted, traces) ∧
      t.weights.getD 0 0 = INVALID_EDGE_WEIGHT ∧
      t.durations.getD 0 0 = MAXIMAL_EDGE_DURATION ∧
      t.middles.getD 0 0 = SPECIAL_NODEID := by
  have hrun : manyToManySearch exFacadeTwo exPhantoms [0] [1] 10 =
      some (⟨[INVALID_EDGE_WEIGHT], [MAXIMAL_EDGE_DURATION], [SPECIAL_NODEID]⟩,
        [⟨1, 1, 0, 0, 0⟩], [[(0, 0, 0)]]) := by rfl
  have h := c7_unreachable_pair_keeps_sentinels exFacadeTwo exPhantoms [0] [1]
    10 0 0 ⟨[INVALID_EDGE_WEIGHT], [MAXIMAL_EDGE_DURATION], [SPECIAL_NODEID]⟩
    [⟨1, 1, 0, 0, 0⟩] [[(0, 0, 0)]] hrun (by decide) (by decide) (by decide)
  exact ⟨_, _, _, hrun, h.1, h.2.1, h.2.2⟩

end ManyToManyCH
